import Mathlib

/-!
Verification development for the SecondBreakfast file-organization pipeline
(`src-tauri/src`): planner, executor, cleanup engine, journal/undo, watcher
loop and the application-level coordination code.  Rust code is shallowly
embedded: filesystem paths become lists of components, the disk becomes an
explicit list of existing paths, fallible I/O becomes oracle parameters, and
each Rust function becomes an executable Lean definition that mirrors its
control flow.
-/

namespace SecondBreakfast

/-- A filesystem path, as the list of its components (what
`std::path::Path::components` yields after normalization). -/
abbrev FsPath := List String

/-- A parsed path that remembers whether the original string was absolute,
mirroring `std::path::PathBuf` on Unix. -/
structure PathP where
  abs : Bool
  comps : List String
deriving DecidableEq, Repr

/-- Bool-valued prefix test on component lists, mirroring
`std::path::Path::starts_with`. -/
def pathStartsWith : FsPath → FsPath → Bool
  | [], _ => true
  | _ :: _, [] => false
  | a :: as, b :: bs => a == b && pathStartsWith as bs

/-- Strip a leading path from another, mirroring `Path::strip_prefix`:
`none` models the `Err` case. -/
def stripPathFront : FsPath → FsPath → Option FsPath
  | [], p => some p
  | _ :: _, [] => none
  | a :: as, b :: bs => if a = b then stripPathFront as bs else none

/-- All nonempty prefixes of a path: the set of directories that
`fs::create_dir_all` brings into existence for that path. -/
def dirChain (p : FsPath) : List FsPath :=
  (List.range p.length).map (fun i => p.take (i + 1))

/-- Effect of `fs::create_dir_all p` on the modelled disk: every ancestor of
`p` (and `p` itself) now exists. -/
def createDirAll (disk : List FsPath) (p : FsPath) : List FsPath :=
  dirChain p ++ disk

/-- Decimal digit to character, as Rust's `fmt::Display` for integers emits. -/
def decDigitChar (d : Nat) : Char := Char.ofNat (48 + d)

/-- Little-endian decimal digits of `n`, with structural fuel so the kernel
can evaluate it. -/
def natDecimalAux : Nat → Nat → List Char
  | 0, _ => []
  | fuel + 1, n =>
    if n = 0 then [] else decDigitChar (n % 10) :: natDecimalAux fuel (n / 10)

/-- Decimal rendering of a natural number, modelling Rust's
`format!("{}", n)` for unsigned integers. -/
def natDecimal (n : Nat) : String :=
  if n = 0 then "0" else ⟨(natDecimalAux n n).reverse⟩

/-- Value of a little-endian decimal digit string; left inverse used to prove
`natDecimal` injective. -/
def fromDigitsLE : List Char → Nat
  | [] => 0
  | c :: cs => (c.toNat - 48) + 10 * fromDigitsLE cs

/-- Bounded search for the first index at or after `start` accepted by
`free`; models the unbounded `loop` in the Rust collision-rename helpers,
whose termination is witnessed separately by `exists_free_in_range`. -/
def searchFree (free : Nat → Bool) : Nat → Nat → Nat
  | start, 0 => start
  | start, fuel + 1 => if free start then start else searchFree free (start + 1) fuel

/-- ASCII whitespace test backing the model of Rust's `str::trim`. -/
def isAsciiWS (c : Char) : Bool := c == ' ' || c == '\t' || c == '\n' || c == '\r'

/-- Model of Rust's `str::trim`. -/
def strTrim (s : String) : String :=
  ⟨((s.data.dropWhile isAsciiWS).reverse.dropWhile isAsciiWS).reverse⟩

/-- Model of `str::to_ascii_lowercase`. -/
def strToLower (s : String) : String := ⟨s.data.map Char.toLower⟩

/-- Model of `str::trim_start_matches('.')`. -/
def dropLeadingDots (s : String) : String := ⟨s.data.dropWhile (· == '.')⟩

/-- Split a character list before and after its last dot; `none` when there
is no dot.  Backs the model of `Path::file_stem` and `Path::extension`. -/
def lastDotSplit : List Char → Option (List Char × List Char)
  | [] => none
  | c :: cs =>
    match lastDotSplit cs with
    | some (pre, post) => some (c :: pre, post)
    | none => if c = '.' then some ([], cs) else none

/-- Stem and extension of a file name, following Rust's
`split_file_at_dot`: no dot, or a lone leading dot, means no extension, and
a missing extension is collapsed to `""` exactly as the planner's
`unwrap_or_default()` calls do. -/
def splitName (name : String) : String × String :=
  if name = ".." then (name, "")
  else
    match lastDotSplit name.data with
    | none => (name, "")
    | some ([], _) => (name, "")
    | some (c :: pre, post) => (⟨c :: pre⟩, ⟨post⟩)

/-- Model of `Path::file_name`: the last component, unless it is `..`. -/
def fileNameOf (p : FsPath) : Option String :=
  match p.getLast? with
  | some n => if n = ".." then none else some n
  | none => none

/-- The stem the collision-rename loops use:
`path.file_stem()...unwrap_or_else(|| "file")` (shared pattern of
`planner.rs` `resolve_destination` and `journal.rs`
`resolve_restored_conflict_path`). -/
def stemFallback (candidate : FsPath) : String :=
  match fileNameOf candidate with
  | some name => (splitName name).1
  | none => "file"

/-- The extension the collision-rename loops use:
`path.extension()...unwrap_or_default()`. -/
def extFallback (candidate : FsPath) : String :=
  match fileNameOf candidate with
  | some name => (splitName name).2
  | none => ""

namespace Planner

/-- Embedding of `rules.rs` `CategoryRule`. -/
structure CategoryRule where
  id : String
  name : String
  target_subfolder : String
  extensions : List String
deriving DecidableEq, Repr

/-- Embedding of `rules.rs` `MiscRule`. -/
structure MiscRule where
  name : String
  target_subfolder : String
deriving DecidableEq, Repr

/-- Embedding of `rules.rs` `CleanupRules` (the `mode` field has a single
variant and is omitted). -/
structure CleanupRules where
  enabled : Bool
  min_age_seconds : Nat
deriving DecidableEq, Repr

/-- Embedding of `rules.rs` `GlobalRules`; `sort_root` is kept as the parsed
component list of the configured root path, and `collision_policy` has a
single variant and is omitted. -/
structure GlobalRules where
  sort_root : FsPath
  case_insensitive_ext : Bool
  unknown_goes_to_misc : Bool
  no_extension_goes_to_misc : Bool
  min_file_age_seconds : Nat
  cleanup_empty_folders : CleanupRules
deriving DecidableEq, Repr

/-- Embedding of `rules.rs` `Rules`. -/
structure Rules where
  global : GlobalRules
  categories : List CategoryRule
  misc : MiscRule
deriving DecidableEq, Repr

/-- Embedding of `rules.rs` `normalize_extension`. -/
def normalize_extension (ext : String) (caseInsensitive : Bool) : String :=
  let e := dropLeadingDots (strTrim ext)
  if caseInsensitive then strToLower e else e

/-- Embedding of `rules.rs` `extension_lookup`; the `HashMap` with
`or_insert` becomes a first-wins association list. -/
def extension_lookup (rules : Rules) : List (String × String) :=
  rules.categories.foldl
    (fun map cat =>
      cat.extensions.foldl
        (fun map ext =>
          let key := normalize_extension ext rules.global.case_insensitive_ext
          if key = "" then map
          else if (map.lookup key).isSome then map
          else map ++ [(key, cat.target_subfolder)])
        map)
    []

/-- Embedding of `rules.rs` `protected_top_level_folders`; the `HashSet`
becomes a list queried by membership. -/
def protected_top_level_folders (rules : Rules) : List String :=
  rules.categories.map (·.target_subfolder) ++ [rules.misc.target_subfolder]

/-- Embedding of `planner.rs` `is_inside_protected`. -/
def is_inside_protected (path root : FsPath) (protectedNames : List String) : Bool :=
  match stripPathFront root path with
  | none => false
  | some [] => false
  | some (first :: _) => protectedNames.contains first

/-- Embedding of `planner.rs` `is_old_enough`; the file age in seconds is
`none` when any of the metadata calls fails. -/
def is_old_enough (age : Option Nat) (minAge : Nat) : Bool :=
  match age with
  | none => false
  | some a => decide (minAge ≤ a)

/-- Embedding of `planner.rs` `Classification`. -/
inductive Classification where
  | target (subfolder : String)
  | skip (reason : String)
deriving DecidableEq, Repr

/-- Embedding of `planner.rs` `classify_target`. -/
def classify_target (path : FsPath) (rules : Rules) (extMap : List (String × String)) :
    Classification :=
  let ext := match path.getLast? with
    | none => ""
    | some name => (splitName name).2
  if ext = "" then
    if rules.global.no_extension_goes_to_misc then .target rules.misc.target_subfolder
    else .skip "no extension and noExtensionGoesToMisc=false"
  else
    let key := normalize_extension ext rules.global.case_insensitive_ext
    match extMap.lookup key with
    | some target => .target target
    | none =>
      if rules.global.unknown_goes_to_misc then .target rules.misc.target_subfolder
      else .skip ("unknown extension \x27." ++ key ++ "\x27 and unknownGoesToMisc=false")

/-- The collision-renamed file name `"<stem> (<n>)<.ext>"` synthesized by
`resolve_destination`. -/
def variantName (stem ext : String) (idx : Nat) : String :=
  if ext = "" then stem ++ " (" ++ natDecimal idx ++ ")"
  else stem ++ " (" ++ natDecimal idx ++ ")." ++ ext

/-- Result of `resolve_destination`: the chosen destination, the
`collision_renamed` flag, and the updated in-pass reservation set (the
Rust function mutates `reserved` through an `&mut` borrow). -/
structure ResolveOut where
  dest : FsPath
  renamed : Bool
  reserved : List FsPath
deriving DecidableEq, Repr

/-- The candidate tried at loop index `idx`: `parent.join(file_name)` for
the synthesized variant name. -/
def variantOf (parent : FsPath) (stem ext : String) (idx : Nat) : FsPath :=
  parent ++ [variantName stem ext idx]

/-- The loop guard `!next.exists() && !reserved.contains(&next)`. -/
def variantIsFree (disk reserved : List FsPath) (parent : FsPath) (stem ext : String)
    (idx : Nat) : Bool :=
  decide (variantOf parent stem ext idx ∉ disk ∧ variantOf parent stem ext idx ∉ reserved)

/-- Embedding of `planner.rs` `resolve_destination`.  `disk` is the set of
paths existing on disk (backing `candidate.exists()`); the unbounded rename
loop is run with enough fuel, which `variant_search_isFree` proves
sufficient. -/
def resolve_destination (disk : List FsPath) (candidate : FsPath) (reserved : List FsPath) :
    ResolveOut :=
  if candidate ∉ disk ∧ candidate ∉ reserved then
    ⟨candidate, false, reserved ++ [candidate]⟩
  else
    ⟨variantOf candidate.dropLast (stemFallback candidate) (extFallback candidate)
        (searchFree
          (variantIsFree disk reserved candidate.dropLast (stemFallback candidate)
            (extFallback candidate))
          1 (disk.length + reserved.length + 1)),
      true,
      reserved ++
        [variantOf candidate.dropLast (stemFallback candidate) (extFallback candidate)
          (searchFree
            (variantIsFree disk reserved candidate.dropLast (stemFallback candidate)
              (extFallback candidate))
            1 (disk.length + reserved.length + 1))]⟩

/-- Embedding of `planner.rs` `PlanEntry`; paths are kept in component
form. -/
structure PlanEntry where
  source_path : FsPath
  destination_path : FsPath
  category : String
  collision_renamed : Bool
deriving DecidableEq, Repr

/-- Embedding of `planner.rs` `PlanSkip`. -/
structure PlanSkip where
  path : FsPath
  reason : String
deriving DecidableEq, Repr

/-- Embedding of `planner.rs` `PlanGroup`. -/
structure PlanGroup where
  category : String
  count : Nat
  entries : List PlanEntry
deriving DecidableEq, Repr

/-- Embedding of `planner.rs` `PlanPreview`. -/
structure PlanPreview where
  session_id : String
  generated_at : String
  total_candidates : Nat
  move_count : Nat
  skip_count : Nat
  error_count : Nat
  potential_conflicts : Nat
  moves : List PlanEntry
  skips : List PlanSkip
  grouped : List PlanGroup
deriving DecidableEq, Repr

/-- Metadata of one file met during the walk: its path and its age in
seconds (`none` models a metadata error). -/
structure FileMeta where
  path : FsPath
  age : Option Nat
deriving DecidableEq, Repr

/-- One item yielded by the `WalkDir` iteration in `build_plan`: a file, a
non-file entry, or a walk error. -/
inductive WalkItem where
  | file (meta : FileMeta)
  | nonFile (path : FsPath)
  | errItem (msg : String)
deriving DecidableEq, Repr

/-- The mutable loop state of `build_plan`. -/
structure PlanState where
  total_candidates : Nat
  errors : Nat
  potential_conflicts : Nat
  planned : List PlanEntry
  skips : List PlanSkip
  reserved : List FsPath
deriving Repr

/-- One iteration of the walk loop in `build_plan`. -/
def planStep (rules : Rules) (extMap : List (String × String))
    (protectedNames : List String) (disk : List FsPath) (st : PlanState) :
    WalkItem → PlanState
  | .errItem msg =>
    { st with
      errors := st.errors + 1
      skips := st.skips ++ [⟨rules.global.sort_root, msg⟩] }
  | .nonFile _ => st
  | .file meta =>
    if is_inside_protected meta.path rules.global.sort_root protectedNames then st
    else
      let st := { st with total_candidates := st.total_candidates + 1 }
      if !is_old_enough meta.age rules.global.min_file_age_seconds then
        { st with skips := st.skips ++
          [⟨meta.path, "file is younger than minFileAgeSeconds (" ++
            natDecimal rules.global.min_file_age_seconds ++ ")"⟩] }
      else
        match classify_target meta.path rules extMap with
        | .skip reason => { st with skips := st.skips ++ [⟨meta.path, reason⟩] }
        | .target targetSub =>
          match fileNameOf meta.path with
          | none =>
            { st with skips := st.skips ++
              [⟨meta.path, "could not determine file name"⟩] }
          | some fileName =>
            let destDir := rules.global.sort_root ++ [targetSub]
            let candidate := destDir ++ [fileName]
            let out := resolve_destination disk candidate st.reserved
            { st with
              potential_conflicts :=
                if out.renamed then st.potential_conflicts + 1
                else st.potential_conflicts
              planned := st.planned ++ [⟨meta.path, out.dest, targetSub, out.renamed⟩]
              reserved := out.reserved }

/-- Append one entry into the per-category grouping, preserving insertion
order of categories (models the `HashMap<String, Vec<PlanEntry>>` fold). -/
def insertGrouped (groups : List (String × List PlanEntry)) (e : PlanEntry) :
    List (String × List PlanEntry) :=
  match groups with
  | [] => [(e.category, [e])]
  | (c, es) :: rest =>
    if c = e.category then (c, es ++ [e]) :: rest
    else (c, es) :: insertGrouped rest e

/-- Insertion into a category-sorted group list (models
`grouped.sort_by(|a, b| a.category.cmp(&b.category))`). -/
def insertSortedGroup (g : String × List PlanEntry) :
    List (String × List PlanEntry) → List (String × List PlanEntry)
  | [] => [g]
  | h :: t => if g.1 ≤ h.1 then g :: h :: t else h :: insertSortedGroup g t

/-- Sort groups by category name. -/
def sortGroups : List (String × List PlanEntry) → List (String × List PlanEntry)
  | [] => []
  | g :: rest => insertSortedGroup g (sortGroups rest)

/-- Embedding of `planner.rs` `build_plan`.  `walk` is the sequence the
directory walk yields, `disk` the set of paths existing on disk, and
`sid`/`now` stand for the fresh `Uuid::new_v4()` and `Utc::now()` values. -/
def build_plan (rules : Rules) (walk : List WalkItem) (disk : List FsPath)
    (sid now : String) : PlanPreview :=
  let extMap := extension_lookup rules
  let protectedNames := protected_top_level_folders rules
  let st := walk.foldl (planStep rules extMap protectedNames disk) ⟨0, 0, 0, [], [], []⟩
  let grouped := (sortGroups (st.planned.foldl insertGrouped [])).map
    (fun g => PlanGroup.mk g.1 g.2.length g.2)
  { session_id := sid, generated_at := now,
    total_candidates := st.total_candidates, move_count := st.planned.length,
    skip_count := st.skips.length, error_count := st.errors,
    potential_conflicts := st.potential_conflicts,
    moves := st.planned, skips := st.skips, grouped := grouped }

/-- The destination paths of a list of plan entries. -/
def destsOf (l : List PlanEntry) : List FsPath := l.map (·.destination_path)

/-- The loop invariant of `build_plan`: every planned destination is
reserved, planned destinations are pairwise distinct, and none of them
exists on disk. -/
def PlanInv (disk : List FsPath) (st : PlanState) : Prop :=
  (∀ e ∈ st.planned, e.destination_path ∈ st.reserved) ∧
  (destsOf st.planned).Nodup ∧
  (∀ e ∈ st.planned, e.destination_path ∉ disk)

end Planner

namespace Executor

/-- Embedding of `executor.rs` `MovedFile`. -/
structure MovedFile where
  source_path : FsPath
  destination_path : FsPath
  category : String
  collision_renamed : Bool
deriving DecidableEq, Repr

/-- Embedding of `executor.rs` `RunResult`. -/
structure RunResult where
  session_id : String
  started_at : String
  finished_at : String
  moved : Nat
  skipped : Nat
  errors : Nat
  moved_files : List MovedFile
  skips : List Planner.PlanSkip
  error_details : List Planner.PlanSkip
  cleanup_trashed : Nat
  cleanup_errors : Nat
deriving DecidableEq, Repr

/-- Embedding of `executor.rs` `move_entry` as a disk transformer.
`mvFail` is the failure oracle for the rename / copy-then-delete chain;
the destination's parent directories are created first in either case, and
on failure the file is left at the source. -/
def move_entry (mvFail : Planner.PlanEntry → Bool) (disk : List FsPath)
    (e : Planner.PlanEntry) : List FsPath × Bool :=
  let disk2 := createDirAll disk e.destination_path.dropLast
  if mvFail e then (disk2, false)
  else (e.destination_path :: disk2.filter (fun q => q ≠ e.source_path), true)

/-- The mutable loop state of `execute_plan_impl`. -/
structure ExecState where
  disk : List FsPath
  moved : Nat
  errors : Nat
  moved_files : List MovedFile
  error_details : List Planner.PlanSkip
deriving Repr

/-- One iteration of the move loop in `execute_plan_impl` (the progress and
log emissions are fire-and-forget and have no effect on the result). -/
def execStep (mvFail : Planner.PlanEntry → Bool) (st : ExecState)
    (item : Planner.PlanEntry) : ExecState :=
  match move_entry mvFail st.disk item with
  | (disk2, true) =>
    { st with
      disk := disk2
      moved := st.moved + 1
      moved_files := st.moved_files ++
        [⟨item.source_path, item.destination_path, item.category, item.collision_renamed⟩] }
  | (disk2, false) =>
    { st with
      disk := disk2
      errors := st.errors + 1
      error_details := st.error_details ++ [⟨item.source_path, "io error"⟩] }

/-- Embedding of `executor.rs` `execute_plan_impl`; returns the `RunResult`
together with the final disk state.  `startedAt`/`finishedAt` stand for the
two `Utc::now()` reads. -/
def execute_plan_impl (mvFail : Planner.PlanEntry → Bool) (plan : Planner.PlanPreview)
    (disk : List FsPath) (startedAt finishedAt : String) : RunResult × List FsPath :=
  let st := plan.moves.foldl (execStep mvFail) ⟨disk, 0, 0, [], []⟩
  ({ session_id := plan.session_id, started_at := startedAt,
     finished_at := finishedAt, moved := st.moved, skipped := plan.skip_count,
     errors := st.errors, moved_files := st.moved_files, skips := plan.skips,
     error_details := st.error_details, cleanup_trashed := 0, cleanup_errors := 0 },
   st.disk)

/-- A small concrete policy used to exercise the pipeline embeddings on
closed inputs. -/
def sampleRules : Planner.Rules :=
  { global := { sort_root := ["root"], case_insensitive_ext := false,
                unknown_goes_to_misc := true, no_extension_goes_to_misc := true,
                min_file_age_seconds := 0,
                cleanup_empty_folders := { enabled := true, min_age_seconds := 0 } },
    categories := [{ id := "documents", name := "Documents",
                     target_subfolder := "Documents", extensions := ["txt"] }],
    misc := { name := "Misc", target_subfolder := "Misc" } }

/-- A walk over one old-enough text file sitting in `root/Drop`. -/
def sampleWalk : List Planner.WalkItem :=
  [.file { path := ["root", "Drop", "a.txt"], age := some 100 }]

/-- The disk contents matching `sampleWalk`. -/
def samplePlanDisk : List FsPath :=
  [["root"], ["root", "Drop"], ["root", "Drop", "a.txt"], ["root", "Documents"]]

end Executor

/-- Splitter for path strings on `/`, accumulating the current segment. -/
def splitSlashAux : List Char → List Char → List String
  | [], acc => [⟨acc.reverse⟩]
  | c :: cs, acc =>
    if c = '/' then (⟨acc.reverse⟩ : String) :: splitSlashAux cs []
    else splitSlashAux cs (c :: acc)

/-- Parse a path string the way `PathBuf::from` plus `components()` sees it
on Unix: a leading slash marks an absolute path, and empty or `.` segments
disappear. -/
def parsePath (s : String) : PathP :=
  { abs := match s.data with
      | '/' :: _ => true
      | _ => false
    comps := (splitSlashAux s.data []).filter (fun t => !(t == "") && !(t == ".")) }

/-- Render an absolute component path back to a string, modelling
`to_string_lossy()` on the paths the pipeline built. -/
def renderAbsPath (p : FsPath) : String := "/" ++ String.intercalate "/" p

namespace Journal

/-- Embedding of `journal.rs` `JournalMove` (fields as written on disk,
i.e. strings). -/
structure JournalMove where
  run_id : String
  original_path : String
  new_path : String
  timestamp : String
  status : String
deriving DecidableEq, Repr

/-- Embedding of `journal.rs` `JournalRun`. -/
structure JournalRun where
  session_id : String
  created_at : String
  moves : List JournalMove
deriving DecidableEq, Repr

/-- Embedding of `journal.rs` `UndoDetail`. -/
structure UndoDetail where
  source_path : String
  destination_path : String
  status : String
  message : String
deriving DecidableEq, Repr

/-- Embedding of `journal.rs` `UndoResult`. -/
structure UndoResult where
  session_id : Option String
  restored : Nat
  skipped : Nat
  conflicts : Nat
  missing : Nat
  errors : Nat
  details : List UndoDetail
deriving DecidableEq, Repr

/-- The JSON values a journal line is made of, restricted to the shapes the
journal schema uses. -/
inductive Json where
  | str (s : String)
  | arr (items : List Json)
  | obj (fields : List (String × Json))

/-- Serde-style field lookup: the first object entry whose key is one of
the accepted names (the canonical `rename` plus its `alias`es). -/
def jLookup (fields : List (String × Json)) (names : List String) : Option Json :=
  match fields.find? (fun kv => names.contains kv.1) with
  | some kv => some kv.2
  | none => none

/-- A required string field: absent or non-string means the whole record
fails to parse. -/
def getStr (fields : List (String × Json)) (names : List String) : Option String :=
  match jLookup fields names with
  | some (.str s) => some s
  | some _ => none
  | none => none

/-- An optional string field with a serde `default`: absent falls back to
the default, present-but-non-string fails the record. -/
def getStrOr (fields : List (String × Json)) (names : List String) (dfl : String) :
    Option String :=
  match jLookup fields names with
  | some (.str s) => some s
  | some _ => none
  | none => some dfl

/-- Accepted names for `JournalRun.session_id`:
`rename = "session_id"`, aliases `sessionId`, `run_id`, `runId`. -/
def sessionAliases : List String := ["session_id", "sessionId", "run_id", "runId"]

/-- Accepted names for `JournalRun.created_at`. -/
def createdAliases : List String := ["created_at", "createdAt"]

/-- Accepted names for `JournalMove.run_id`. -/
def runIdAliases : List String := ["run_id", "runId"]

/-- Accepted names for `JournalMove.original_path`. -/
def originalAliases : List String :=
  ["original_path", "originalPath", "source_path", "sourcePath"]

/-- Accepted names for `JournalMove.new_path`. -/
def newAliases : List String :=
  ["new_path", "newPath", "destination_path", "destinationPath"]

/-- Deserialization of one `JournalMove` object, per the serde attributes:
`run_id`, `original_path` and `new_path` default to `""`, the timestamp
defaults to `Utc::now()` (the `now` parameter) and the status to
`"moved"`. -/
def parseMove (now : String) (j : Json) : Option JournalMove :=
  match j with
  | .obj fields => do
    let runId ← getStrOr fields runIdAliases ""
    let orig ← getStrOr fields originalAliases ""
    let nw ← getStrOr fields newAliases ""
    let ts ← getStrOr fields ["timestamp"] now
    let st ← getStrOr fields ["status"] "moved"
    some ⟨runId, orig, nw, ts, st⟩
  | _ => none

/-- Deserialization of one `JournalRun` line: the session id and the moves
array are required, `created_at` defaults to the current time. -/
def parseRun (now : String) (j : Json) : Option JournalRun :=
  match j with
  | .obj fields => do
    let sid ← getStr fields sessionAliases
    let created ← getStrOr fields createdAliases now
    let movesJson ← match jLookup fields ["moves"] with
      | some (.arr items) => some items
      | _ => none
    let moves ← movesJson.mapM (parseMove now)
    some ⟨sid, created, moves⟩
  | _ => none

/-- The backfill loop in `load_last_run`: an empty per-move `run_id` is
replaced by the run's session id, and a blank status by `"moved"`. -/
def backfillRun (run : JournalRun) : JournalRun :=
  { run with
    moves := run.moves.map (fun m =>
      let m2 := if m.run_id = "" then { m with run_id := run.session_id } else m
      if strTrim m2.status = "" then { m2 with status := "moved" } else m2) }

/-- Embedding of `journal.rs` `load_last_run`: scan every line, parse each
independently (unparsable lines are skipped), keep the last success. -/
def load_last_run (now : String) (file : List Json) : Option JournalRun :=
  file.foldl
    (fun last line =>
      match parseRun now line with
      | some run => some (backfillRun run)
      | none => last)
    none

/-- Canonical serialization of one move, as `append_run` writes it. -/
def moveToJson (m : JournalMove) : Json :=
  .obj [("run_id", .str m.run_id), ("original_path", .str m.original_path),
        ("new_path", .str m.new_path), ("timestamp", .str m.timestamp),
        ("status", .str m.status)]

/-- Canonical serialization of one run line. -/
def runToJson (r : JournalRun) : Json :=
  .obj [("session_id", .str r.session_id), ("created_at", .str r.created_at),
        ("moves", .arr (r.moves.map moveToJson))]

/-- The origin-path override lookup in `append_run`:
`overrides.get(src).filter(|v| !v.trim().is_empty())`. -/
def lookupOverride (overrides : List (String × String)) (src : String) : Option String :=
  match overrides.lookup src with
  | some v => if strTrim v = "" then none else some v
  | none => none

/-- Embedding of `journal.rs` `append_run` as a transformer of the journal
file (a list of JSON lines): an empty move list appends nothing, otherwise
one canonical line is appended. -/
def append_run (file : List Json) (sid : String) (moved_files : List Executor.MovedFile)
    (overrides : List (String × String)) (now : String) : List Json :=
  if moved_files.isEmpty then file
  else
    file ++ [runToJson
      { session_id := sid, created_at := now,
        moves := moved_files.map (fun item =>
          { run_id := sid
            original_path :=
              match lookupOverride overrides (renderAbsPath item.source_path) with
              | some v => v
              | none => renderAbsPath item.source_path
            new_path := renderAbsPath item.destination_path
            timestamp := now
            status := "moved" }) }]

/-- Embedding of `journal.rs` `absolute_to_safe_relative` (Unix branch): a
relative path means `none`, a `..` component is rejected, otherwise the
leading slash is dropped and the components are kept. -/
def absolute_to_safe_relative (p : PathP) : Option FsPath :=
  if !p.abs then none
  else if p.comps.contains ".." then none
  else some p.comps

/-- The conflict file name `"<stem> (restored <n>)<.ext>"` synthesized by
`resolve_restored_conflict_path`. -/
def restoredVariantName (stem ext : String) (idx : Nat) : String :=
  if ext = "" then stem ++ " (restored " ++ natDecimal idx ++ ")"
  else stem ++ " (restored " ++ natDecimal idx ++ ")." ++ ext

/-- The candidate tried at loop index `idx` of the restore-conflict loop. -/
def restoredVariantOf (parent : FsPath) (stem ext : String) (idx : Nat) : FsPath :=
  parent ++ [restoredVariantName stem ext idx]

/-- The loop guard `!candidate.exists()` of the restore-conflict loop. -/
def restoredVariantIsFree (disk : List FsPath) (parent : FsPath) (stem ext : String)
    (idx : Nat) : Bool :=
  decide (restoredVariantOf parent stem ext idx ∉ disk)

/-- Embedding of `journal.rs` `resolve_restored_conflict_path`; the
unbounded loop runs with fuel that `restored_search_isFree` proves
sufficient. -/
def resolve_restored_conflict_path (disk : List FsPath) (original : FsPath) : FsPath :=
  restoredVariantOf original.dropLast (stemFallback original) (extFallback original)
    (searchFree
      (restoredVariantIsFree disk original.dropLast (stemFallback original)
        (extFallback original))
      1 (disk.length + 1))

/-- The mutable state of the undo loop: the disk plus the accumulating
`UndoResult` counters and details. -/
structure UndoState where
  disk : List FsPath
  restored : Nat
  skipped : Nat
  conflicts : Nat
  missing : Nat
  errors : Nat
  details : List UndoDetail
deriving Repr

/-- Tail of one undo iteration once a restore target is fixed.  The
per-move `fs::create_dir_all(parent)?` can fail — the `cdFail` oracle
decides it — and on failure the `?` propagates the error out of the whole
undo, modelled as `none`.  Otherwise the `move_file` attempt (failure
decided by the `mvFail` oracle) records either the error or the restore,
whose detail status is `"conflict"` when the target was diverted. -/
def undoFinish (mvFail : FsPath → FsPath → Bool) (cdFail : FsPath → Bool)
    (restoredBase : FsPath) (st : UndoState) (m : JournalMove) (target : FsPath)
    (conflictTarget : Option FsPath) : Option UndoState :=
  if cdFail target.dropLast then none
  else
    if mvFail (parsePath m.new_path).comps target then
      some { st with
        disk := createDirAll st.disk target.dropLast
        errors := st.errors + 1
        details := st.details ++ [⟨m.original_path, m.new_path, "error", "io error"⟩] }
    else
      some { st with
        disk := target :: (createDirAll st.disk target.dropLast).filter
          (fun q => q ≠ (parsePath m.new_path).comps)
        restored := st.restored + 1
        details := st.details ++
          [match conflictTarget with
            | some c =>
              ⟨m.original_path, m.new_path, "conflict",
                "restored to conflict path " ++ renderAbsPath c⟩
            | none =>
              ⟨m.original_path, m.new_path, "restored",
                "restored under " ++ renderAbsPath restoredBase⟩] }

/-- One iteration of the undo loop in `undo_last_run`, in the order the
Rust code checks: undoable status, non-blank paths, absolute paths,
existing current path, derivable safe relative path, then the restore
attempt with conflict diversion.  `none` is the `Err` propagated by the
per-move `fs::create_dir_all(parent)?`. -/
def undoStep (mvFail : FsPath → FsPath → Bool) (cdFail : FsPath → Bool)
    (restoredBase : FsPath) (st : UndoState) (m : JournalMove) : Option UndoState :=
  if m.status ≠ "moved" then
    some { st with
      skipped := st.skipped + 1
      details := st.details ++
        [⟨m.original_path, m.new_path, "skipped",
          "journal status \x27" ++ m.status ++ "\x27 is not undoable"⟩] }
  else if strTrim m.original_path = "" ∨ strTrim m.new_path = "" then
    some { st with
      skipped := st.skipped + 1
      details := st.details ++
        [⟨m.original_path, m.new_path, "skipped",
          "journal entry missing original_path or dest_path"⟩] }
  else if ¬(parsePath m.original_path).abs ∨ ¬(parsePath m.new_path).abs then
    some { st with
      skipped := st.skipped + 1
      details := st.details ++
        [⟨m.original_path, m.new_path, "skipped", "journal paths must be absolute"⟩] }
  else if (parsePath m.new_path).comps ∉ st.disk then
    some { st with
      missing := st.missing + 1
      details := st.details ++
        [⟨m.original_path, m.new_path, "missing", "destination no longer exists"⟩] }
  else
    match absolute_to_safe_relative (parsePath m.original_path) with
    | none =>
      some { st with
        skipped := st.skipped + 1
        details := st.details ++
          [⟨m.original_path, m.new_path, "skipped",
            "could not derive safe relative restore path"⟩] }
    | some rel =>
      if restoredBase ++ rel ∈ st.disk then
        undoFinish mvFail cdFail restoredBase { st with conflicts := st.conflicts + 1 } m
          (resolve_restored_conflict_path st.disk (restoredBase ++ rel))
          (some (resolve_restored_conflict_path st.disk (restoredBase ++ rel)))
      else
        undoFinish mvFail cdFail restoredBase st m (restoredBase ++ rel) none

/-- The `for` loop of `undo_last_run` with its per-move `?`: the first
create-dir failure aborts, discarding the accumulated state and the
remaining moves. -/
def undoMoves (mvFail : FsPath → FsPath → Bool) (cdFail : FsPath → Bool)
    (restoredBase : FsPath) : List JournalMove → UndoState → Option UndoState
  | [], st => some st
  | m :: rest, st =>
    match undoStep mvFail cdFail restoredBase st m with
    | none => none
    | some st2 => undoMoves mvFail cdFail restoredBase rest st2

/-- The undo pass over one journal run: create the per-session quarantine
base `<sort_root>/Restored/<session_id>` (whose `fs::create_dir_all` is
also behind a `?`), then process the run's moves in reverse list order,
aborting on the first failed per-move directory creation. -/
def undoRun (mvFail : FsPath → FsPath → Bool) (cdFail : FsPath → Bool)
    (sortRoot : FsPath) (run : JournalRun) (disk : List FsPath) :
    Option (UndoResult × List FsPath) :=
  if cdFail (sortRoot ++ ["Restored", run.session_id]) then none
  else
    match undoMoves mvFail cdFail (sortRoot ++ ["Restored", run.session_id])
      run.moves.reverse
      ⟨createDirAll disk (sortRoot ++ ["Restored", run.session_id]), 0, 0, 0, 0, 0, []⟩ with
    | none => none
    | some st =>
      some (⟨some run.session_id, st.restored, st.skipped, st.conflicts, st.missing,
        st.errors, st.details⟩, st.disk)

/-- Embedding of `journal.rs` `undo_last_run`: load the last journaled run
and undo it; an absent run yields the all-zero result, an aborted undo
yields `none`. -/
def undo_last_run (mvFail : FsPath → FsPath → Bool) (cdFail : FsPath → Bool)
    (sortRoot : FsPath) (file : List Json) (now : String) (disk : List FsPath) :
    Option (UndoResult × List FsPath) :=
  match load_last_run now file with
  | none => some (⟨none, 0, 0, 0, 0, 0, []⟩, disk)
  | some run => undoRun mvFail cdFail sortRoot run disk

/-- The disk-independent preconditions a journal move must meet before the
undo loop will attempt to relocate its file: undoable status, non-blank
paths, absolute paths, and a derivable safe relative restore path. -/
def MoveWf (m : JournalMove) : Prop :=
  m.status = "moved" ∧
  ¬strTrim m.original_path = "" ∧ ¬strTrim m.new_path = "" ∧
  (parsePath m.original_path).abs = true ∧ (parsePath m.new_path).abs = true ∧
  (absolute_to_safe_relative (parsePath m.original_path)).isSome = true

instance (m : JournalMove) : Decidable (MoveWf m) := by
  unfold MoveWf
  infer_instance

/-- The component path of a move's post-run (current) location. -/
def newComps (m : JournalMove) : FsPath := (parsePath m.new_path).comps

/-- Paths related to the `Restored` quarantine subtree: its ancestors and
everything below it.  Every path the undo pass creates lies in this cone. -/
def InRestoredCone (coneBase q : FsPath) : Prop :=
  pathStartsWith q coneBase = true ∨ pathStartsWith coneBase q = true

instance (b q : FsPath) : Decidable (InRestoredCone b q) := by
  unfold InRestoredCone
  infer_instance

/-- The detail row the undo loop records for a move whose current path no
longer exists. -/
def missingDetailOf (m : JournalMove) : UndoDetail :=
  ⟨m.original_path, m.new_path, "missing", "destination no longer exists"⟩

end Journal

namespace Cleanup

/-- Embedding of `cleanup.rs` `CleanupResult`, extended with the list of
paths actually handed to the platform trash primitive (the model of the
`trash::delete` call sequence). -/
structure CleanupResult where
  trashed : Nat
  skipped : Nat
  errors : Nat
  skipped_paths : List String
  trashedPaths : List FsPath
deriving DecidableEq, Repr

/-- Embedding of `cleanup.rs` `is_protected`. -/
def is_protected (path root : FsPath) (protectedNames : List String) : Bool :=
  if path = root then true
  else
    match stripPathFront root path with
    | none => true
    | some [] => true
    | some (first :: _) => protectedNames.contains first

/-- One item yielded by the bottom-up (`contents_first`) walk in
`cleanup_empty_folders`: an entry with its directory flag, or a walk
error. -/
inductive CleanupItem where
  | entry (path : FsPath) (isDir : Bool)
  | errItem (msg : String)
deriving DecidableEq, Repr

/-- `read_dir(path).next().is_none()`: the directory has no immediate
child on the modelled disk. -/
def dirIsEmpty (disk : List FsPath) (p : FsPath) : Bool :=
  !(disk.any (fun q => q.length == p.length + 1 && pathStartsWith p q))

/-- The mutable state of the cleanup walk. -/
structure CleanupState where
  disk : List FsPath
  trashed : Nat
  skipped : Nat
  errors : Nat
  skipped_paths : List String
  trashedPaths : List FsPath
deriving Repr

/-- One iteration of the cleanup walk: non-directories are ignored,
protected directories are counted as skipped, `read_dir` failures
(`readFail`) and `trash::delete` failures (`trashFail`) are counted as
errors, and an empty unprotected directory is sent to trash and removed
from the disk. -/
def cleanupStep (root : FsPath) (protectedNames : List String)
    (readFail trashFail : FsPath → Bool) (st : CleanupState) :
    CleanupItem → CleanupState
  | .errItem msg =>
    { st with
      errors := st.errors + 1
      skipped_paths := st.skipped_paths ++ [msg] }
  | .entry p isDir =>
    if !isDir then st
    else if is_protected p root protectedNames then
      { st with skipped := st.skipped + 1 }
    else if readFail p then
      { st with
        errors := st.errors + 1
        skipped_paths := st.skipped_paths ++ [renderAbsPath p ++ ": io error"] }
    else if dirIsEmpty st.disk p then
      if trashFail p then
        { st with
          errors := st.errors + 1
          skipped_paths := st.skipped_paths ++ [renderAbsPath p ++ ": trash error"] }
      else
        { st with
          trashed := st.trashed + 1
          trashedPaths := st.trashedPaths ++ [p]
          disk := st.disk.filter (fun q => q ≠ p) }
    else st

/-- Embedding of `cleanup.rs` `cleanup_empty_folders`; returns the result
together with the final disk state. -/
def cleanup_empty_folders (rules : Planner.Rules) (walk : List CleanupItem)
    (disk : List FsPath) (readFail trashFail : FsPath → Bool) :
    CleanupResult × List FsPath :=
  if !rules.global.cleanup_empty_folders.enabled then
    (⟨0, 0, 0, [], []⟩, disk)
  else
    let root := rules.global.sort_root
    let protectedNames := Planner.protected_top_level_folders rules
    let st := walk.foldl (cleanupStep root protectedNames readFail trashFail)
      ⟨disk, 0, 0, 0, [], []⟩
    (⟨st.trashed, st.skipped, st.errors, st.skipped_paths, st.trashedPaths⟩, st.disk)

end Cleanup

namespace Watcher

/-- Embedding of the `notify::EventKind` classification used by
`watcher.rs`. -/
inductive EventKind where
  | access
  | create
  | modify
  | remove
  | other
  | any
deriving DecidableEq, Repr

/-- A raw filesystem event: its kind and its path list (a rename carries
`[source, destination]`). -/
structure FsEvent where
  kind : EventKind
  paths : List PathP
deriving DecidableEq, Repr

/-- Embedding of `watcher.rs` `is_sorting_relevant`. -/
def is_sorting_relevant : EventKind → Bool
  | .create => true
  | .modify => true
  | .remove => true
  | .any => true
  | _ => false

/-- What one `recv_timeout` poll of the event channel yields (the
disconnected case exits the loop and is not part of a normal iteration). -/
inductive PollOutcome where
  | event (e : FsEvent)
  | errEvent
  | timeout
deriving DecidableEq, Repr

/-- Embedding of `lib.rs` `OriginHint`. -/
structure OriginHint where
  observed_path : PathP
  original_path : PathP
deriving DecidableEq, Repr

/-- The state visible to one iteration of the watcher loop together with
the shared origin-hint store of `lib.rs` (which an event observer would
update). -/
structure WatcherSystemState where
  pendingAt : Option Nat
  hints : List OriginHint
deriving DecidableEq, Repr

/-- One iteration of `watcher.rs` `run_loop` (the poll, the
relevance-driven `pending_at` update, and the debounce check); the returned
flag tells whether the bound action fired.  The origin-hint store is
carried through so that its treatment by the loop body is visible. -/
def run_loop_iter (poll : PollOutcome) (now debounce : Nat)
    (st : WatcherSystemState) : WatcherSystemState × Bool :=
  let st2 := match poll with
    | .event e =>
      if is_sorting_relevant e.kind then { st with pendingAt := some now } else st
    | .errEvent => st
    | .timeout => st
  match st2.pendingAt with
  | some started =>
    if debounce ≤ now - started then ({ st2 with pendingAt := none }, true)
    else (st2, false)
  | none => (st2, false)

/-- `starts_with` on parsed paths. -/
def pathPStartsWith (pre p : PathP) : Bool :=
  pre.abs == p.abs && pathStartsWith pre.comps p.comps

/-- Replace the original path of the first hint observed at `key`
(`hints.iter_mut().find(...)`). -/
def replaceOriginalFirst (hints : List OriginHint) (key newOrig : PathP) :
    List OriginHint :=
  match hints with
  | [] => []
  | h :: t =>
    if h.observed_path == key then { h with original_path := newOrig } :: t
    else h :: replaceOriginalFirst t key newOrig

/-- Embedding of `lib.rs` `capture_origin_hint`, the observer body that the
origin-hint tracker exposes for raw watcher events (`path_key` is the
identity off Windows). -/
def capture_origin_hint (sortRoot : PathP) (e : FsEvent) (hints : List OriginHint) :
    List OriginHint :=
  match e.paths with
  | pFrom :: pTo :: _ =>
    if pathPStartsWith sortRoot pTo && !(pathPStartsWith sortRoot pFrom) then
      if !(pFrom.abs && pTo.abs) then hints
      else if hints.any (fun h => h.observed_path == pTo) then
        replaceOriginalFirst hints pTo pFrom
      else hints ++ [⟨pTo, pFrom⟩]
    else if pathPStartsWith sortRoot pFrom && !(pathPStartsWith sortRoot pTo) then
      hints.filter (fun h => !(pathPStartsWith pFrom h.observed_path))
    else if pathPStartsWith sortRoot pFrom && pathPStartsWith sortRoot pTo then
      hints.map (fun h =>
        if pathPStartsWith pFrom h.observed_path then
          match stripPathFront pFrom.comps h.observed_path.comps with
          | some rel =>
            { h with observed_path :=
                if rel.isEmpty then pTo else ⟨pTo.abs, pTo.comps ++ rel⟩ }
          | none => h
        else h)
    else hints
  | _ => hints

/-- A concrete outside-to-inside rename event: the kind of raw event the
origin-hint tracker exists to record. -/
def c5Event : FsEvent :=
  ⟨.modify, [⟨true, ["outside", "a.txt"]⟩, ⟨true, ["root", "a.txt"]⟩]⟩

end Watcher

namespace App

/-- The externally visible operations of `lib.rs` `undo_last_run_internal`,
in the order they can occur. -/
inductive UndoOp where
  | stopWatcher
  | settleDelay
  | performUndo
  | startWatcher
deriving DecidableEq, Repr

/-- Embedding of the operation order of `lib.rs` `undo_last_run_internal`:
when the watcher was running it is stopped first and restarted last, the
undo itself runs in between, and the fixed 1500 ms settle delay
(`thread::sleep`) sits between undo and restart. -/
def undo_last_run_internal_ops (watcherWasRunning : Bool) : List UndoOp :=
  (if watcherWasRunning then [.stopWatcher] else []) ++
  [.performUndo] ++
  (if watcherWasRunning then [.settleDelay, .startWatcher] else [])

end App

theorem decDigitChar_val : ∀ d < 10, (decDigitChar d).toNat - 48 = d := by
  decide

theorem fromDigitsLE_natDecimalAux :
    ∀ fuel n, n ≤ fuel → fromDigitsLE (natDecimalAux fuel n) = n := by
  intro fuel
  induction fuel with
  | zero =>
    intro n hn
    interval_cases n
    rfl
  | succ fuel ih =>
    intro n hn
    by_cases h0 : n = 0
    · subst h0; rfl
    · have hdiv : n / 10 ≤ fuel := by
        have hlt : n / 10 < n := Nat.div_lt_self (Nat.pos_of_ne_zero h0) (by decide)
        omega
      have hmod : n % 10 < 10 := Nat.mod_lt _ (by decide)
      simp only [natDecimalAux, h0, if_false, fromDigitsLE]
      rw [ih (n / 10) hdiv, decDigitChar_val (n % 10) hmod]
      exact Nat.mod_add_div n 10

theorem natDecimal_data_inj {m n : Nat}
    (h : (natDecimal m).data = (natDecimal n).data) : m = n := by
  unfold natDecimal at h
  by_cases hm : m = 0 <;> by_cases hn : n = 0
  · omega
  · exfalso
    simp only [hm, if_true, hn, if_false] at h
    have h2 : natDecimalAux n n = ['0'] := by
      have := congrArg List.reverse h
      simpa using this.symm
    have h3 := fromDigitsLE_natDecimalAux n n (le_refl n)
    rw [h2] at h3
    simp [fromDigitsLE] at h3
    omega
  · exfalso
    simp only [hm, if_false, hn, if_true] at h
    have h2 : natDecimalAux m m = ['0'] := by
      have := congrArg List.reverse h
      simpa using this
    have h3 := fromDigitsLE_natDecimalAux m m (le_refl m)
    rw [h2] at h3
    simp [fromDigitsLE] at h3
    omega
  · simp only [hm, hn, if_false] at h
    have h2 : natDecimalAux m m = natDecimalAux n n := by
      have := congrArg List.reverse h
      simpa using this
    have h3 := fromDigitsLE_natDecimalAux m m (le_refl m)
    have h4 := fromDigitsLE_natDecimalAux n n (le_refl n)
    rw [h2, h4] at h3
    exact h3.symm

theorem natDecimal_injective : Function.Injective natDecimal := by
  intro m n h
  exact natDecimal_data_inj (congrArg String.data h)

theorem searchFree_spec (free : Nat → Bool) :
    ∀ fuel start, (∃ j, j < fuel ∧ free (start + j) = true) →
      free (searchFree free start fuel) = true := by
  intro fuel
  induction fuel with
  | zero =>
    intro start h
    obtain ⟨j, hj, _⟩ := h
    omega
  | succ fuel ih =>
    intro start h
    by_cases hs : free start = true
    · simp [searchFree, hs]
    · simp only [searchFree, hs, if_false]
      apply ih
      obtain ⟨j, hj, hfree⟩ := h
      match j with
      | 0 => simp at hfree; exact absurd hfree hs
      | j + 1 =>
        refine ⟨j, by omega, ?_⟩
        have : start + 1 + j = start + (j + 1) := by omega
        rw [this]
        exact hfree

/-- Pigeonhole: an injective family of candidates cannot all lie in a finite
occupied list; this is why the Rust rename loops terminate. -/
theorem exists_free_in_range {α : Type} [DecidableEq α]
    (g : Nat → α) (hg : Function.Injective g) (L : List α) :
    ∃ j, j ≤ L.length ∧ g j ∉ L := by
  by_contra hcon
  push_neg at hcon
  have hsub : ∀ x ∈ (List.range (L.length + 1)).map g, x ∈ L := by
    intro x hx
    obtain ⟨j, hj, rfl⟩ := List.mem_map.mp hx
    exact hcon j (by simpa using Nat.lt_succ_iff.mp (List.mem_range.mp hj))
  have hnodup : ((List.range (L.length + 1)).map g).Nodup :=
    (List.nodup_range _).map hg
  have hlen := (hnodup.subperm hsub).length_le
  simp at hlen

namespace Planner

theorem variantName_inj (stem ext : String) :
    Function.Injective (variantName stem ext) := by
  intro i j h
  apply natDecimal_data_inj
  unfold variantName at h
  by_cases he : ext = ""
  · simp only [he, if_true] at h
    have hd := congrArg String.data h
    simp only [String.data_append] at hd
    exact List.append_cancel_left (List.append_cancel_right hd)
  · simp only [he, if_false] at h
    have hd := congrArg String.data h
    simp only [String.data_append] at hd
    exact List.append_cancel_left
      (List.append_cancel_right (List.append_cancel_right hd))

theorem variantOf_inj (parent : FsPath) (stem ext : String) :
    Function.Injective (variantOf parent stem ext) := by
  intro i j h
  unfold variantOf at h
  have h2 := List.append_cancel_left h
  exact variantName_inj stem ext (by simpa using h2)

theorem variant_search_isFree (disk reserved : List FsPath) (parent : FsPath)
    (stem ext : String) :
    variantIsFree disk reserved parent stem ext
      (searchFree (variantIsFree disk reserved parent stem ext) 1
        (disk.length + reserved.length + 1)) = true := by
  apply searchFree_spec
  obtain ⟨j, hj, hfree⟩ :=
    exists_free_in_range (fun k => variantOf parent stem ext (1 + k))
      (fun a b hab => by
        have := variantOf_inj parent stem ext hab
        omega)
      (disk ++ reserved)
  refine ⟨j, ?_, ?_⟩
  · simp only [List.length_append] at hj
    omega
  · simp only [List.mem_append, not_or] at hfree
    simp only [variantIsFree, decide_eq_true_eq]
    exact hfree

theorem resolve_destination_spec (disk : List FsPath) (candidate : FsPath)
    (reserved : List FsPath) :
    (resolve_destination disk candidate reserved).dest ∉ reserved ∧
    (resolve_destination disk candidate reserved).dest ∉ disk ∧
    (resolve_destination disk candidate reserved).reserved =
      reserved ++ [(resolve_destination disk candidate reserved).dest] := by
  unfold resolve_destination
  by_cases hc : candidate ∉ disk ∧ candidate ∉ reserved
  · rw [if_pos hc]
    exact ⟨hc.2, hc.1, rfl⟩
  · rw [if_neg hc]
    have h := variant_search_isFree disk reserved candidate.dropLast
      (stemFallback candidate) (extFallback candidate)
    simp only [variantIsFree, decide_eq_true_eq] at h
    exact ⟨h.2, h.1, rfl⟩

theorem planStep_preserves (rules : Rules) (extMap : List (String × String))
    (protectedNames : List String) (disk : List FsPath) (st : PlanState)
    (item : WalkItem) (h : PlanInv disk st) :
    PlanInv disk (planStep rules extMap protectedNames disk st item) := by
  cases item with
  | errItem msg => exact h
  | nonFile p => exact h
  | file meta =>
    dsimp only [planStep]
    split
    · exact h
    · split
      · exact h
      · split
        · exact h
        · split
          · exact h
          · obtain ⟨h1, h2, h3⟩ := h
            obtain ⟨hs1, hs2, hs3⟩ := resolve_destination_spec disk
              (rules.global.sort_root ++ [_] ++ [_]) st.reserved
            refine ⟨?_, ?_, ?_⟩
            · intro e he
              rw [hs3]
              rcases List.mem_append.mp he with hold | hnew
              · exact List.mem_append_left _ (h1 e hold)
              · simp only [List.mem_singleton] at hnew
                subst hnew
                exact List.mem_append_right _ (by simp)
            · dsimp only [destsOf]
              rw [List.map_append, List.nodup_append]
              refine ⟨h2, by simp, ?_⟩
              intro x hx hx'
              simp only [List.map_cons, List.map_nil, List.mem_cons,
                List.not_mem_nil, or_false] at hx'
              subst hx'
              obtain ⟨e, he, hedest⟩ := List.mem_map.mp hx
              exact hs1 (hedest ▸ h1 e he)
            · intro e he
              rcases List.mem_append.mp he with hold | hnew
              · exact h3 e hold
              · simp only [List.mem_singleton] at hnew
                subst hnew
                exact hs2

theorem plan_fold_inv (rules : Rules) (extMap : List (String × String))
    (protectedNames : List String) (disk : List FsPath) :
    ∀ (walk : List WalkItem) (st : PlanState), PlanInv disk st →
      PlanInv disk (walk.foldl (planStep rules extMap protectedNames disk) st) := by
  intro walk
  induction walk with
  | nil => intro st h; exact h
  | cons item rest ih =>
    intro st h
    exact ih _ (planStep_preserves rules extMap protectedNames disk st item h)

/-- C1.  For every policy, walk order and disk state, the `PlanPreview`
returned by `build_plan` contains no two `PlanEntry` values with the same
destination path, and no planned destination collides with a path already
existing on disk: candidates are checked against both on-disk existence and
the in-pass reservation set, colliding candidates being renamed until a
free name is found. -/
theorem C1_plan_destinations_unique (rules : Rules) (walk : List WalkItem)
    (disk : List FsPath) (sid now : String) :
    (destsOf (build_plan rules walk disk sid now).moves).Nodup ∧
    ∀ e ∈ (build_plan rules walk disk sid now).moves, e.destination_path ∉ disk := by
  have h := plan_fold_inv rules (extension_lookup rules)
    (protected_top_level_folders rules) disk walk ⟨0, 0, 0, [], [], []⟩
    ⟨fun e he => absurd he (List.not_mem_nil e), by simp [destsOf],
      fun e he => absurd he (List.not_mem_nil e)⟩
  exact ⟨h.2.1, h.2.2⟩

end Planner

namespace Executor

theorem execStep_all_success (mvFail : Planner.PlanEntry → Bool) :
    ∀ (moves : List Planner.PlanEntry) (st : ExecState),
      (∀ e ∈ moves, mvFail e = false) →
      (moves.foldl (execStep mvFail) st).moved_files =
        st.moved_files ++ moves.map
          (fun e => ⟨e.source_path, e.destination_path, e.category, e.collision_renamed⟩) := by
  intro moves
  induction moves with
  | nil => intro st h; simp
  | cons e rest ih =>
    intro st h
    have he : mvFail e = false := h e (List.mem_cons_self e rest)
    have hrest : ∀ x ∈ rest, mvFail x = false :=
      fun x hx => h x (List.mem_cons_of_mem e hx)
    simp only [List.foldl_cons]
    rw [ih _ hrest]
    simp [execStep, move_entry, he]

/-- C2.  When every planned move succeeds (no concurrent external
mutation), the destination paths of the `moved_files` reported by
`execute_plan_impl` are exactly the destination paths of the plan produced
by `build_plan` — in particular the two destination-path sets are equal. -/
theorem C2_dry_run_matches_execution (rules : Planner.Rules)
    (walk : List Planner.WalkItem) (planDisk : List FsPath) (sid now : String)
    (mvFail : Planner.PlanEntry → Bool) (execDisk : List FsPath)
    (startedAt finishedAt : String)
    (h : ∀ e ∈ (Planner.build_plan rules walk planDisk sid now).moves, mvFail e = false) :
    ((execute_plan_impl mvFail (Planner.build_plan rules walk planDisk sid now)
        execDisk startedAt finishedAt).1.moved_files.map (·.destination_path)) =
      Planner.destsOf (Planner.build_plan rules walk planDisk sid now).moves ∧
    ∀ p, p ∈ ((execute_plan_impl mvFail (Planner.build_plan rules walk planDisk sid now)
        execDisk startedAt finishedAt).1.moved_files.map (·.destination_path)) ↔
      p ∈ Planner.destsOf (Planner.build_plan rules walk planDisk sid now).moves := by
  have hmain :
      ((execute_plan_impl mvFail (Planner.build_plan rules walk planDisk sid now)
        execDisk startedAt finishedAt).1.moved_files.map (·.destination_path)) =
      Planner.destsOf (Planner.build_plan rules walk planDisk sid now).moves := by
    show ((((Planner.build_plan rules walk planDisk sid now).moves.foldl
      (execStep mvFail) ⟨execDisk, 0, 0, [], []⟩).moved_files).map (·.destination_path)) = _
    rw [execStep_all_success mvFail _ _ h]
    simp [Planner.destsOf, List.map_map, Function.comp]
  exact ⟨hmain, fun p => by rw [hmain]⟩

theorem C2_dry_run_matches_execution_witness :
    (∀ e ∈ (Planner.build_plan sampleRules sampleWalk samplePlanDisk "sid" "now").moves,
      (fun _ : Planner.PlanEntry => false) e = false) ∧
    ((execute_plan_impl (fun _ => false)
        (Planner.build_plan sampleRules sampleWalk samplePlanDisk "sid" "now")
        samplePlanDisk "t0" "t1").1.moved_files.map (·.destination_path)) =
      Planner.destsOf
        (Planner.build_plan sampleRules sampleWalk samplePlanDisk "sid" "now").moves :=
  ⟨fun _ _ => rfl,
    (C2_dry_run_matches_execution sampleRules sampleWalk samplePlanDisk "sid" "now"
      (fun _ => false) samplePlanDisk "t0" "t1" (fun _ _ => rfl)).1⟩

end Executor

namespace Journal

/-- C9.  Appending a run whose list of moved files is empty leaves the
journal file unchanged, so a later `load_last_run` still parses the
previous journaled run and `undo_last_run` still targets it. -/
theorem C9_append_empty_run_is_noop (file : List Json) (sid : String)
    (overrides : List (String × String)) (now now2 : String)
    (mvFail : FsPath → FsPath → Bool) (cdFail : FsPath → Bool) (sortRoot : FsPath)
    (disk : List FsPath) :
    append_run file sid [] overrides now = file ∧
    load_last_run now2 (append_run file sid [] overrides now) = load_last_run now2 file ∧
    undo_last_run mvFail cdFail sortRoot (append_run file sid [] overrides now) now2 disk =
      undo_last_run mvFail cdFail sortRoot file now2 disk :=
  ⟨rfl, rfl, rfl⟩

end Journal

namespace App

/-- C6 counterexample.  The claimed operation order for an undo with the
watcher running — stop, settle delay, undo, restart — is not the order the
code performs. -/
theorem C6_counterexample_delay_not_before_undo :
    undo_last_run_internal_ops true ≠
      [UndoOp.stopWatcher, UndoOp.settleDelay, UndoOp.performUndo,
        UndoOp.startWatcher] := by
  decide

/-- C6 (amended).  When undo is invoked while the watcher is running, the
code stops the watcher, performs the undo of the last run, waits the fixed
settle delay, and then restarts the watcher; with the watcher stopped only
the undo itself runs. -/
theorem C6_undo_operation_order :
    undo_last_run_internal_ops true =
      [UndoOp.stopWatcher, UndoOp.performUndo, UndoOp.settleDelay,
        UndoOp.startWatcher] ∧
    undo_last_run_internal_ops false = [UndoOp.performUndo] := by
  decide

end App

namespace Watcher

/-- C5.  The event loop of `watcher.rs` does not forward raw events
anywhere: one loop iteration never changes the origin-hint store, whatever
it polls — while the origin-hint capture observer defined in `lib.rs`
would record a concrete outside-to-inside rename event.  (`lib.rs` passes
that observer to a five-argument `start_watcher` that the `watcher.rs` in
the tree does not expose.) -/
theorem C5_raw_events_not_forwarded :
    (∀ (poll : PollOutcome) (now debounce : Nat) (st : WatcherSystemState),
      (run_loop_iter poll now debounce st).1.hints = st.hints) ∧
    capture_origin_hint ⟨true, ["root"]⟩ c5Event [] =
      [⟨⟨true, ["root", "a.txt"]⟩, ⟨true, ["outside", "a.txt"]⟩⟩] := by
  constructor
  · intro poll now debounce st
    unfold run_loop_iter
    cases poll <;> dsimp only <;> (repeat' split) <;> rfl
  · decide

end Watcher

namespace Cleanup

theorem cleanup_fold_inv (root : FsPath) (protectedNames : List String)
    (readFail trashFail : FsPath → Bool) (init : List FsPath) :
    ∀ (walk : List CleanupItem) (st : CleanupState),
      (∀ x, x ∈ st.disk ↔ x ∈ init ∧ x ∉ st.trashedPaths) →
      (∀ p ∈ st.trashedPaths, is_protected p root protectedNames = false) →
      (∀ p ∈ st.trashedPaths, ∀ q ∈ init,
        q.length = p.length + 1 → pathStartsWith p q = true → q ∈ st.trashedPaths) →
      ((∀ x, x ∈ (walk.foldl (cleanupStep root protectedNames readFail trashFail) st).disk ↔
          x ∈ init ∧
          x ∉ (walk.foldl (cleanupStep root protectedNames readFail trashFail) st).trashedPaths) ∧
        (∀ p ∈ (walk.foldl (cleanupStep root protectedNames readFail trashFail) st).trashedPaths,
          is_protected p root protectedNames = false) ∧
        (∀ p ∈ (walk.foldl (cleanupStep root protectedNames readFail trashFail) st).trashedPaths,
          ∀ q ∈ init, q.length = p.length + 1 → pathStartsWith p q = true →
            q ∈ (walk.foldl (cleanupStep root protectedNames readFail trashFail) st).trashedPaths)) := by
  intro walk
  induction walk with
  | nil => intro st h1 h2 h3; exact ⟨h1, h2, h3⟩
  | cons item rest ih =>
    intro st h1 h2 h3
    simp only [List.foldl_cons]
    cases item with
    | errItem msg => exact ih _ h1 h2 h3
    | entry p isDir =>
      dsimp only [cleanupStep]
      split
      · exact ih _ h1 h2 h3
      · split
        · exact ih _ h1 h2 h3
        · split
          · exact ih _ h1 h2 h3
          · split
            · split
              · exact ih _ h1 h2 h3
              · rename_i hdir hprot hread hempty htrash
                apply ih
                · intro x
                  dsimp only
                  simp only [List.mem_filter, List.mem_append, List.mem_singleton,
                    ne_eq, decide_not, Bool.not_eq_true', decide_eq_false_iff_not]
                  constructor
                  · rintro ⟨hx, hne⟩
                    obtain ⟨hxi, hxt⟩ := (h1 x).mp hx
                    refine ⟨hxi, ?_⟩
                    rintro (hin | hxp)
                    · exact hxt hin
                    · exact hne hxp
                  · rintro ⟨hxi, hxt⟩
                    have hxold : x ∉ st.trashedPaths := fun hc => hxt (Or.inl hc)
                    have hxp : x ≠ p := fun hc => hxt (Or.inr hc)
                    exact ⟨(h1 x).mpr ⟨hxi, hxold⟩, hxp⟩
                · intro q hq
                  rcases List.mem_append.mp hq with hq | hq
                  · exact h2 q hq
                  · simp only [List.mem_singleton] at hq
                    subst hq
                    exact Bool.not_eq_true _ |>.mp hprot
                · intro q hq r hr hlen hstarts
                  rcases List.mem_append.mp hq with hq | hq
                  · exact List.mem_append_left _ (h3 q hq r hr hlen hstarts)
                  · simp only [List.mem_singleton] at hq
                    subst hq
                    by_cases hrt : r ∈ st.trashedPaths
                    · exact List.mem_append_left _ hrt
                    · exfalso
                      have hrd : r ∈ st.disk := (h1 r).mpr ⟨hr, hrt⟩
                      have hfalse : dirIsEmpty st.disk q = false := by
                        unfold dirIsEmpty
                        simp only [Bool.not_eq_false', List.any_eq_true]
                        exact ⟨r, hrd, by simp [hlen, hstarts]⟩
                      simp [hfalse] at hempty
            · exact ih _ h1 h2 h3

/-- C8.  Every directory that `cleanup_empty_folders` sends to trash is
distinct from the root, lies strictly under the root with an unprotected
first segment, retains no surviving entry on the final disk, and every
on-disk path strictly one level below it was itself trashed (so it was
empty when trashed). -/
theorem C8_cleanup_safety (rules : Planner.Rules) (walk : List CleanupItem)
    (disk : List FsPath) (readFail trashFail : FsPath → Bool) :
    ∀ p ∈ (cleanup_empty_folders rules walk disk readFail trashFail).1.trashedPaths,
      p ≠ rules.global.sort_root ∧
      (∃ first rest, stripPathFront rules.global.sort_root p = some (first :: rest) ∧
        (Planner.protected_top_level_folders rules).contains first = false) ∧
      (∀ q ∈ (cleanup_empty_folders rules walk disk readFail trashFail).2,
        ¬(q.length = p.length + 1 ∧ pathStartsWith p q = true)) ∧
      (∀ q ∈ disk, q.length = p.length + 1 → pathStartsWith p q = true →
        q ∈ (cleanup_empty_folders rules walk disk readFail trashFail).1.trashedPaths) := by
  intro p hp
  unfold cleanup_empty_folders at hp ⊢
  by_cases hen : (!rules.global.cleanup_empty_folders.enabled) = true
  · rw [if_pos hen] at hp
    exact absurd hp (List.not_mem_nil p)
  · rw [if_neg hen] at hp ⊢
    obtain ⟨h1, h2, h3⟩ := cleanup_fold_inv rules.global.sort_root
      (Planner.protected_top_level_folders rules) readFail trashFail disk walk
      ⟨disk, 0, 0, 0, [], []⟩
      (by intro x; simp)
      (by intro q hq; exact absurd hq (List.not_mem_nil q))
      (by intro q hq; exact absurd hq (List.not_mem_nil q))
    have hprot := h2 p hp
    unfold is_protected at hprot
    by_cases hroot : p = rules.global.sort_root
    · rw [if_pos hroot] at hprot
      exact absurd hprot (by simp)
    · rw [if_neg hroot] at hprot
      refine ⟨hroot, ?_, ?_, ?_⟩
      · rcases hstrip : stripPathFront rules.global.sort_root p with _ | rel
        · rw [hstrip] at hprot
          exact absurd hprot (by simp)
        · cases rel with
          | nil =>
            rw [hstrip] at hprot
            exact absurd hprot (by simp)
          | cons first rest2 =>
            rw [hstrip] at hprot
            exact ⟨first, rest2, rfl, hprot⟩
      · intro q hq hbad
        obtain ⟨hqi, hqt⟩ := (h1 q).mp hq
        exact hqt (h3 p hp q hqi hbad.1 hbad.2)
      · intro q hq hlen hstarts
        exact h3 p hp q hq hlen hstarts

end Cleanup

namespace Journal

theorem undoFinish_some_detail (mvFail : FsPath → FsPath → Bool) (cdFail : FsPath → Bool)
    (rb : FsPath) (st : UndoState) (m : JournalMove) (target : FsPath)
    (ct : Option FsPath) (st2 : UndoState)
    (h : undoFinish mvFail cdFail rb st m target ct = some st2) :
    ∃ d : UndoDetail, st2.details = st.details ++ [d] ∧
      d.source_path = m.original_path ∧ d.destination_path = m.new_path := by
  unfold undoFinish at h
  by_cases hcd : cdFail target.dropLast = true
  · rw [if_pos hcd] at h
    exact absurd h (by simp)
  · rw [if_neg hcd] at h
    by_cases hf : mvFail (parsePath m.new_path).comps target = true
    · rw [if_pos hf] at h
      injection h with h2
      subst h2
      exact ⟨_, rfl, rfl, rfl⟩
    · rw [if_neg hf] at h
      rcases ct with _ | c
      · injection h with h2
        subst h2
        exact ⟨_, rfl, rfl, rfl⟩
      · injection h with h2
        subst h2
        exact ⟨_, rfl, rfl, rfl⟩

theorem undoStep_some_detail (mvFail : FsPath → FsPath → Bool) (cdFail : FsPath → Bool)
    (restoredBase : FsPath) (st : UndoState) (m : JournalMove) (st2 : UndoState)
    (h : undoStep mvFail cdFail restoredBase st m = some st2) :
    ∃ d : UndoDetail, st2.details = st.details ++ [d] ∧
      d.source_path = m.original_path ∧ d.destination_path = m.new_path ∧
      ((d.status = "restored" ∨ d.status = "conflict") → MoveWf m) := by
  unfold undoStep at h
  by_cases hstatus : m.status = "moved"
  case neg =>
    rw [if_pos hstatus] at h
    injection h with h2
    subst h2
    refine ⟨_, rfl, rfl, rfl, ?_⟩
    rintro (hc | hc) <;> simp at hc
  case pos =>
  rw [if_neg (not_not_intro hstatus)] at h
  by_cases hblank : strTrim m.original_path = "" ∨ strTrim m.new_path = ""
  case pos =>
    rw [if_pos hblank] at h
    injection h with h2
    subst h2
    refine ⟨_, rfl, rfl, rfl, ?_⟩
    rintro (hc | hc) <;> simp at hc
  case neg =>
  rw [if_neg hblank] at h
  by_cases habs : ¬(parsePath m.original_path).abs = true ∨
      ¬(parsePath m.new_path).abs = true
  case pos =>
    rw [if_pos habs] at h
    injection h with h2
    subst h2
    refine ⟨_, rfl, rfl, rfl, ?_⟩
    rintro (hc | hc) <;> simp at hc
  case neg =>
  rw [if_neg habs] at h
  by_cases hmem : (parsePath m.new_path).comps ∉ st.disk
  case pos =>
    rw [if_pos hmem] at h
    injection h with h2
    subst h2
    refine ⟨_, rfl, rfl, rfl, ?_⟩
    rintro (hc | hc) <;> simp at hc
  case neg =>
  rw [if_neg hmem] at h
  rcases hrel : absolute_to_safe_relative (parsePath m.original_path) with _ | rel
  · rw [hrel] at h
    dsimp only at h
    injection h with h2
    subst h2
    refine ⟨_, rfl, rfl, rfl, ?_⟩
    rintro (hc | hc) <;> simp at hc
  · have hwf : MoveWf m := by
      refine ⟨hstatus, fun h2 => hblank (Or.inl h2), fun h2 => hblank (Or.inr h2),
        ?_, ?_, ?_⟩
      · by_contra hc
        exact habs (Or.inl hc)
      · by_contra hc
        exact habs (Or.inr hc)
      · rw [hrel]
        rfl
    rw [hrel] at h
    dsimp only at h
    by_cases hcol : restoredBase ++ rel ∈ st.disk
    · rw [if_pos hcol] at h
      obtain ⟨d, hd, hsrc, hdst⟩ := undoFinish_some_detail _ _ _ _ _ _ _ _ h
      exact ⟨d, hd, hsrc, hdst, fun _ => hwf⟩
    · rw [if_neg hcol] at h
      obtain ⟨d, hd, hsrc, hdst⟩ := undoFinish_some_detail _ _ _ _ _ _ _ _ h
      exact ⟨d, hd, hsrc, hdst, fun _ => hwf⟩

theorem undoStep_split (mvFail : FsPath → FsPath → Bool) (cdFail : FsPath → Bool)
    (rb : FsPath) (st : UndoState) (m : JournalMove) :
    (∃ st2, undoStep mvFail cdFail rb st m = some st2 ∧
      st2.disk = st.disk ∧ st2.restored = st.restored ∧ st2.conflicts = st.conflicts ∧
      (MoveWf m → newComps m ∉ st.disk →
        st2.details = st.details ++ [missingDetailOf m]) ∧
      ¬(MoveWf m ∧ newComps m ∈ st.disk)) ∨
    (MoveWf m ∧ newComps m ∈ st.disk ∧
      ∃ rel, absolute_to_safe_relative (parsePath m.original_path) = some rel ∧
        ((rb ++ rel ∈ st.disk ∧ undoStep mvFail cdFail rb st m =
            undoFinish mvFail cdFail rb { st with conflicts := st.conflicts + 1 } m
              (resolve_restored_conflict_path st.disk (rb ++ rel))
              (some (resolve_restored_conflict_path st.disk (rb ++ rel)))) ∨
          (rb ++ rel ∉ st.disk ∧ undoStep mvFail cdFail rb st m =
            undoFinish mvFail cdFail rb st m (rb ++ rel) none))) := by
  by_cases hstatus : m.status = "moved"
  case neg =>
    have hstep : undoStep mvFail cdFail rb st m = some { st with
        skipped := st.skipped + 1
        details := st.details ++
          [⟨m.original_path, m.new_path, "skipped",
            "journal status \x27" ++ m.status ++ "\x27 is not undoable"⟩] } := by
      unfold undoStep
      rw [if_pos hstatus]
    refine Or.inl ⟨_, hstep, rfl, rfl, rfl, ?_, ?_⟩
    · intro hwf
      exact absurd hwf.1 hstatus
    · rintro ⟨hwf, _⟩
      exact hstatus hwf.1
  case pos =>
  by_cases hblank : strTrim m.original_path = "" ∨ strTrim m.new_path = ""
  case pos =>
    have hstep : undoStep mvFail cdFail rb st m = some { st with
        skipped := st.skipped + 1
        details := st.details ++
          [⟨m.original_path, m.new_path, "skipped",
            "journal entry missing original_path or dest_path"⟩] } := by
      unfold undoStep
      rw [if_neg (not_not_intro hstatus), if_pos hblank]
    refine Or.inl ⟨_, hstep, rfl, rfl, rfl, ?_, ?_⟩
    · intro hwf
      rcases hblank with hb | hb
      · exact absurd hb hwf.2.1
      · exact absurd hb hwf.2.2.1
    · rintro ⟨hwf, _⟩
      rcases hblank with hb | hb
      · exact hwf.2.1 hb
      · exact hwf.2.2.1 hb
  case neg =>
  by_cases habs : ¬(parsePath m.original_path).abs = true ∨
      ¬(parsePath m.new_path).abs = true
  case pos =>
    have hstep : undoStep mvFail cdFail rb st m = some { st with
        skipped := st.skipped + 1
        details := st.details ++
          [⟨m.original_path, m.new_path, "skipped", "journal paths must be absolute"⟩] } := by
      unfold undoStep
      rw [if_neg (not_not_intro hstatus), if_neg hblank, if_pos habs]
    refine Or.inl ⟨_, hstep, rfl, rfl, rfl, ?_, ?_⟩
    · intro hwf
      rcases habs with ha | ha
      · exact absurd hwf.2.2.2.1 ha
      · exact absurd hwf.2.2.2.2.1 ha
    · rintro ⟨hwf, _⟩
      rcases habs with ha | ha
      · exact ha hwf.2.2.2.1
      · exact ha hwf.2.2.2.2.1
  case neg =>
  by_cases hmem : (parsePath m.new_path).comps ∉ st.disk
  case pos =>
    have hstep : undoStep mvFail cdFail rb st m = some { st with
        missing := st.missing + 1
        details := st.details ++ [missingDetailOf m] } := by
      unfold undoStep
      rw [if_neg (not_not_intro hstatus), if_neg hblank, if_neg habs, if_pos hmem]
      rfl
    refine Or.inl ⟨_, hstep, rfl, rfl, rfl, ?_, ?_⟩
    · intro _ _
      rfl
    · rintro ⟨_, hin⟩
      exact hmem hin
  case neg =>
  rcases hrel : absolute_to_safe_relative (parsePath m.original_path) with _ | rel
  · have hstep : undoStep mvFail cdFail rb st m = some { st with
        skipped := st.skipped + 1
        details := st.details ++
          [⟨m.original_path, m.new_path, "skipped",
            "could not derive safe relative restore path"⟩] } := by
      unfold undoStep
      rw [if_neg (not_not_intro hstatus), if_neg hblank, if_neg habs, if_neg hmem, hrel]
    refine Or.inl ⟨_, hstep, rfl, rfl, rfl, ?_, ?_⟩
    · intro hwf
      have h6 := hwf.2.2.2.2.2
      rw [hrel] at h6
      exact absurd h6 (by simp)
    · rintro ⟨hwf, _⟩
      have h6 := hwf.2.2.2.2.2
      rw [hrel] at h6
      simp at h6
  · have hwf : MoveWf m := by
      refine ⟨hstatus, fun h => hblank (Or.inl h), fun h => hblank (Or.inr h), ?_, ?_, ?_⟩
      · by_contra hc
        exact habs (Or.inl hc)
      · by_contra hc
        exact habs (Or.inr hc)
      · rw [hrel]
        rfl
    refine Or.inr ⟨hwf, not_not.mp hmem, rel, rfl, ?_⟩
    by_cases hcol : rb ++ rel ∈ st.disk
    · refine Or.inl ⟨hcol, ?_⟩
      unfold undoStep
      rw [if_neg (not_not_intro hstatus), if_neg hblank, if_neg habs, if_neg hmem, hrel]
      dsimp only
      rw [if_pos hcol]
    · refine Or.inr ⟨hcol, ?_⟩
      unfold undoStep
      rw [if_neg (not_not_intro hstatus), if_neg hblank, if_neg habs, if_neg hmem, hrel]
      dsimp only
      rw [if_neg hcol]

theorem undoFinish_cdfalse_some (mvFail : FsPath → FsPath → Bool) (rb : FsPath)
    (st : UndoState) (m : JournalMove) (target : FsPath) (ct : Option FsPath) :
    ∃ st2, undoFinish mvFail (fun _ => false) rb st m target ct = some st2 := by
  unfold undoFinish
  rw [if_neg (by simp)]
  by_cases hf : mvFail (parsePath m.new_path).comps target = true
  · rw [if_pos hf]
    exact ⟨_, rfl⟩
  · rw [if_neg hf]
    exact ⟨_, rfl⟩

theorem undoStep_cdfalse_some (mvFail : FsPath → FsPath → Bool) (rb : FsPath)
    (st : UndoState) (m : JournalMove) :
    ∃ st2, undoStep mvFail (fun _ => false) rb st m = some st2 := by
  rcases undoStep_split mvFail (fun _ => false) rb st m with
    ⟨st2, hsome, _⟩ | ⟨_, _, rel, _, hcase⟩
  · exact ⟨st2, hsome⟩
  · rcases hcase with ⟨_, hstep⟩ | ⟨_, hstep⟩
    · rw [hstep]
      exact undoFinish_cdfalse_some mvFail rb _ m _ _
    · rw [hstep]
      exact undoFinish_cdfalse_some mvFail rb st m _ none

theorem undo_fold_details (mvFail : FsPath → FsPath → Bool) (restoredBase : FsPath) :
    ∀ (moves : List JournalMove) (st : UndoState),
      ∃ stf, undoMoves mvFail (fun _ => false) restoredBase moves st = some stf ∧
        stf.details.map (·.source_path) =
          st.details.map (·.source_path) ++ moves.map (·.original_path) ∧
        stf.details.map (·.destination_path) =
          st.details.map (·.destination_path) ++ moves.map (·.new_path) := by
  intro moves
  induction moves with
  | nil =>
    intro st
    exact ⟨st, rfl, by simp, by simp⟩
  | cons m rest ih =>
    intro st
    obtain ⟨st1, hsome⟩ := undoStep_cdfalse_some mvFail restoredBase st m
    obtain ⟨d, hd, hsrc, hdst, _⟩ := undoStep_some_detail mvFail (fun _ => false)
      restoredBase st m st1 hsome
    obtain ⟨stf, hfold, ih1, ih2⟩ := ih st1
    refine ⟨stf, ?_, ?_, ?_⟩
    · unfold undoMoves
      rw [hsome]
      dsimp only
      exact hfold
    · rw [ih1, hd]
      simp [hsrc]
    · rw [ih2, hd]
      simp [hdst]

theorem undo_fold_details_origin (mvFail : FsPath → FsPath → Bool) (cdFail : FsPath → Bool)
    (restoredBase : FsPath) :
    ∀ (moves : List JournalMove) (st stf : UndoState) (d : UndoDetail),
      undoMoves mvFail cdFail restoredBase moves st = some stf →
      d ∈ stf.details →
      d ∈ st.details ∨ ∃ m ∈ moves, d.source_path = m.original_path ∧
        d.destination_path = m.new_path ∧
        ((d.status = "restored" ∨ d.status = "conflict") → MoveWf m) := by
  intro moves
  induction moves with
  | nil =>
    intro st stf d h hd
    unfold undoMoves at h
    injection h with h2
    subst h2
    exact Or.inl hd
  | cons m rest ih =>
    intro st stf d h hd
    rcases heq : undoStep mvFail cdFail restoredBase st m with _ | st1
    · unfold undoMoves at h
      rw [heq] at h
      dsimp only at h
      exact Option.noConfusion h
    · unfold undoMoves at h
      rw [heq] at h
      dsimp only at h
      rcases ih st1 stf d h hd with hin | ⟨m2, hm2, hrest⟩
      · obtain ⟨d0, hd0, hsrc, hdst, hwf⟩ := undoStep_some_detail mvFail cdFail
          restoredBase st m st1 heq
        rw [hd0] at hin
        rcases List.mem_append.mp hin with hold | hnew
        · exact Or.inl hold
        · simp only [List.mem_singleton] at hnew
          subst hnew
          exact Or.inr ⟨m, List.mem_cons_self m rest, hsrc, hdst, hwf⟩
      · exact Or.inr ⟨m2, List.mem_cons_of_mem m hm2, hrest⟩

/-- C3 counterexample.  A two-move run whose moves are both well-formed and
whose current paths are both on disk: when creating the restore-target
parent directory of the first-processed (last-listed) move fails, the
whole undo aborts with an error (`none` mirrors the `Err` that
`fs::create_dir_all(parent)?` propagates out of `undo_last_run` at
journal.rs lines 272-274) — the remaining move is never processed and no
detail at all is produced — although without that failure the same run
yields one detail per move.  This refutes the claim's "one per-move
failure never stops processing the remaining moves". -/
theorem C3_counterexample_create_dir_abort :
    undoRun (fun _ _ => false)
      (fun p => p == ["root", "Restored", "sid", "Dump"]) ["root"]
      ⟨"sid", "t0",
        [⟨"sid", "/Keep/a.txt", "/root/Documents/a.txt", "t1", "moved"⟩,
          ⟨"sid", "/Dump/b.txt", "/root/Documents/b.txt", "t1", "moved"⟩]⟩
      [["root"], ["root", "Documents", "a.txt"], ["root", "Documents", "b.txt"]]
      = none ∧
    (undoRun (fun _ _ => false) (fun _ => false) ["root"]
      ⟨"sid", "t0",
        [⟨"sid", "/Keep/a.txt", "/root/Documents/a.txt", "t1", "moved"⟩,
          ⟨"sid", "/Dump/b.txt", "/root/Documents/b.txt", "t1", "moved"⟩]⟩
      [["root"], ["root", "Documents", "a.txt"], ["root", "Documents", "b.txt"]]).map
        (fun p => p.1.details.length) = some 2 :=
  ⟨rfl, rfl⟩

/-- C3 (amended).  `undo_last_run` processes the moves of the last run in
reverse list order and classifies each move in order: a status other than
`"moved"` is skipped; a blank or non-absolute original or new path is
skipped; a current path absent from the disk is reported missing; only the
remaining moves are restore candidates.  A per-move `move_file` failure is
recorded as an `"error"` outcome and never stops processing the remaining
moves — when no directory creation fails, the detail sequence mirrors the
reversed move list whatever `move_file` failures occur — but a failure of
the per-move `fs::create_dir_all` for a restore target's parent
directories aborts the entire undo, discarding the remaining moves. -/
theorem C3_undo_order_and_classification (mvFail : FsPath → FsPath → Bool)
    (sortRoot : FsPath) (run : JournalRun) (disk : List FsPath) :
    (∃ res disk2,
      undoRun mvFail (fun _ => false) sortRoot run disk = some (res, disk2) ∧
      res.details.map (·.source_path) = run.moves.reverse.map (·.original_path) ∧
      res.details.map (·.destination_path) = run.moves.reverse.map (·.new_path)) ∧
    (∀ (cdFail : FsPath → Bool) (restoredBase : FsPath) (st : UndoState)
        (m : JournalMove),
      (m.status ≠ "moved" →
        ∃ st2, undoStep mvFail cdFail restoredBase st m = some st2 ∧
          st2.details = st.details ++
            [⟨m.original_path, m.new_path, "skipped",
              "journal status \x27" ++ m.status ++ "\x27 is not undoable"⟩]) ∧
      (m.status = "moved" →
        (strTrim m.original_path = "" ∨ strTrim m.new_path = "" ∨
          ¬(parsePath m.original_path).abs = true ∨
          ¬(parsePath m.new_path).abs = true) →
        ∃ msg st2, undoStep mvFail cdFail restoredBase st m = some st2 ∧
          st2.details = st.details ++
            [⟨m.original_path, m.new_path, "skipped", msg⟩]) ∧
      (m.status = "moved" →
        ¬strTrim m.original_path = "" → ¬strTrim m.new_path = "" →
        (parsePath m.original_path).abs = true →
        (parsePath m.new_path).abs = true →
        (parsePath m.new_path).comps ∉ st.disk →
        ∃ st2, undoStep mvFail cdFail restoredBase st m = some st2 ∧
          st2.details = st.details ++ [missingDetailOf m]) ∧
      (∀ rel, MoveWf m →
        absolute_to_safe_relative (parsePath m.original_path) = some rel →
        (parsePath m.new_path).comps ∈ st.disk →
        restoredBase ++ rel ∉ st.disk →
        cdFail (restoredBase ++ rel).dropLast = true →
        undoStep mvFail cdFail restoredBase st m = none ∧
        ∀ rest, undoMoves mvFail cdFail restoredBase (m :: rest) st = none)) := by
  constructor
  · obtain ⟨stf, hfold, h1, h2⟩ := undo_fold_details mvFail
      (sortRoot ++ ["Restored", run.session_id]) run.moves.reverse
      ⟨createDirAll disk (sortRoot ++ ["Restored", run.session_id]), 0, 0, 0, 0, 0, []⟩
    refine ⟨⟨some run.session_id, stf.restored, stf.skipped, stf.conflicts, stf.missing,
      stf.errors, stf.details⟩, stf.disk, ?_, by simpa using h1, by simpa using h2⟩
    unfold undoRun
    rw [if_neg (by simp), hfold]
  · intro cdFail restoredBase st m
    refine ⟨?_, ?_, ?_, ?_⟩
    · intro hstatus
      have hstep : undoStep mvFail cdFail restoredBase st m = some { st with
          skipped := st.skipped + 1
          details := st.details ++
            [⟨m.original_path, m.new_path, "skipped",
              "journal status \x27" ++ m.status ++ "\x27 is not undoable"⟩] } := by
        unfold undoStep
        rw [if_pos hstatus]
      exact ⟨_, hstep, rfl⟩
    · intro hstatus hbad
      by_cases hblank : strTrim m.original_path = "" ∨ strTrim m.new_path = ""
      · have hstep : undoStep mvFail cdFail restoredBase st m = some { st with
            skipped := st.skipped + 1
            details := st.details ++
              [⟨m.original_path, m.new_path, "skipped",
                "journal entry missing original_path or dest_path"⟩] } := by
          unfold undoStep
          rw [if_neg (not_not_intro hstatus), if_pos hblank]
        exact ⟨_, _, hstep, rfl⟩
      · have habs : ¬(parsePath m.original_path).abs = true ∨
            ¬(parsePath m.new_path).abs = true := by
          rcases hbad with hb | hb | ha | ha
          · exact absurd (Or.inl hb) hblank
          · exact absurd (Or.inr hb) hblank
          · exact Or.inl ha
          · exact Or.inr ha
        have hstep : undoStep mvFail cdFail restoredBase st m = some { st with
            skipped := st.skipped + 1
            details := st.details ++
              [⟨m.original_path, m.new_path, "skipped",
                "journal paths must be absolute"⟩] } := by
          unfold undoStep
          rw [if_neg (not_not_intro hstatus), if_neg hblank, if_pos habs]
        exact ⟨_, _, hstep, rfl⟩
    · intro hstatus ho hn hoa hna hmem
      have hstep : undoStep mvFail cdFail restoredBase st m = some { st with
          missing := st.missing + 1
          details := st.details ++ [missingDetailOf m] } := by
        unfold undoStep
        rw [if_neg (not_not_intro hstatus), if_neg (fun hb => hb.elim ho hn),
          if_neg (fun hb => hb.elim (fun h => h hoa) (fun h => h hna)), if_pos hmem]
        rfl
      exact ⟨_, hstep, rfl⟩
    · intro rel hwf hrel hexist hcol hcd
      have hstep : undoStep mvFail cdFail restoredBase st m = none := by
        unfold undoStep
        rw [if_neg (not_not_intro hwf.1),
          if_neg (fun hb => hb.elim hwf.2.1 hwf.2.2.1),
          if_neg (fun hb => hb.elim (fun h2 => h2 hwf.2.2.2.1)
            (fun h2 => h2 hwf.2.2.2.2.1)),
          if_neg (not_not_intro hexist), hrel]
        dsimp only
        rw [if_neg hcol]
        unfold undoFinish
        rw [if_pos hcd]
      refine ⟨hstep, ?_⟩
      intro rest
      unfold undoMoves
      rw [hstep]

theorem C3_undo_order_and_classification_witness :
    (∃ res disk2,
      Journal.undoRun (fun _ _ => false) (fun _ => false) ["root"]
        ⟨"sid", "t0", [⟨"sid", "/Drop/a.txt", "/root/Documents/a.txt", "t1", "moved"⟩]⟩
        [["root"]] = some (res, disk2) ∧
      res.details.map (·.source_path) = ["/Drop/a.txt"]) ∧
    (∃ st2, Journal.undoStep (fun _ _ => false) (fun _ => false)
        ["root", "Restored", "sid"] ⟨[], 0, 0, 0, 0, 0, []⟩
        ⟨"sid", "/Drop/a.txt", "/root/Documents/a.txt", "t1", "done"⟩ = some st2 ∧
      st2.details = [⟨"/Drop/a.txt", "/root/Documents/a.txt", "skipped",
        "journal status \x27done\x27 is not undoable"⟩]) ∧
    (∃ msg st2, Journal.undoStep (fun _ _ => false) (fun _ => false)
        ["root", "Restored", "sid"] ⟨[], 0, 0, 0, 0, 0, []⟩
        ⟨"sid", "a.txt", "b.txt", "t1", "moved"⟩ = some st2 ∧
      st2.details = [⟨"a.txt", "b.txt", "skipped", msg⟩]) ∧
    (∃ st2, Journal.undoStep (fun _ _ => false) (fun _ => false)
        ["root", "Restored", "sid"] ⟨[], 0, 0, 0, 0, 0, []⟩
        ⟨"sid", "/Drop/a.txt", "/root/Documents/a.txt", "t1", "moved"⟩ = some st2 ∧
      st2.details = [Journal.missingDetailOf
        ⟨"sid", "/Drop/a.txt", "/root/Documents/a.txt", "t1", "moved"⟩]) ∧
    Journal.undoStep (fun _ _ => false)
        (fun p => p == ["root", "Restored", "sid", "Drop"])
        ["root", "Restored", "sid"]
        ⟨[["root", "Documents", "a.txt"]], 0, 0, 0, 0, 0, []⟩
        ⟨"sid", "/Drop/a.txt", "/root/Documents/a.txt", "t1", "moved"⟩ = none := by
  have h := Journal.C3_undo_order_and_classification (fun _ _ => false) ["root"]
    ⟨"sid", "t0", [⟨"sid", "/Drop/a.txt", "/root/Documents/a.txt", "t1", "moved"⟩]⟩
    [["root"]]
  refine ⟨?_, ?_, ?_, ?_, ?_⟩
  · obtain ⟨res, disk2, hsome, h1, _⟩ := h.1
    refine ⟨res, disk2, hsome, ?_⟩
    rw [h1]
    decide
  · obtain ⟨st2, hsome, hdet⟩ := (h.2 (fun _ => false) ["root", "Restored", "sid"]
      ⟨[], 0, 0, 0, 0, 0, []⟩
      ⟨"sid", "/Drop/a.txt", "/root/Documents/a.txt", "t1", "done"⟩).1 (by decide)
    exact ⟨st2, hsome, by rw [hdet]; rfl⟩
  · obtain ⟨msg, st2, hsome, hdet⟩ := (h.2 (fun _ => false) ["root", "Restored", "sid"]
      ⟨[], 0, 0, 0, 0, 0, []⟩ ⟨"sid", "a.txt", "b.txt", "t1", "moved"⟩).2.1 rfl
      (by decide)
    exact ⟨msg, st2, hsome, by rw [hdet]; rfl⟩
  · obtain ⟨st2, hsome, hdet⟩ := (h.2 (fun _ => false) ["root", "Restored", "sid"]
      ⟨[], 0, 0, 0, 0, 0, []⟩
      ⟨"sid", "/Drop/a.txt", "/root/Documents/a.txt", "t1", "moved"⟩).2.2.1 rfl
      (by decide) (by decide) (by decide) (by decide) (by decide)
    exact ⟨st2, hsome, by rw [hdet]; rfl⟩
  · exact ((h.2 (fun p => p == ["root", "Restored", "sid", "Drop"])
      ["root", "Restored", "sid"] ⟨[["root", "Documents", "a.txt"]], 0, 0, 0, 0, 0, []⟩
      ⟨"sid", "/Drop/a.txt", "/root/Documents/a.txt", "t1", "moved"⟩).2.2.2
      ["Drop", "a.txt"] (by decide) (by decide) (by decide) (by decide) (by decide)).1

/-- C10.  In the undo loop every successful relocation increments the
restored counter: a restore diverted to a disambiguated conflict path
increments both the conflicts counter and the restored counter (detail
status `"conflict"`), an undiverted restore increments restored alone —
and a run in which every entry collides therefore reports restored equal
to conflicts equal to the number of entries, as the closed two-move run
below shows. -/
theorem C10_conflict_restores_count_both (mvFail : FsPath → FsPath → Bool)
    (cdFail : FsPath → Bool) (restoredBase : FsPath) (st : UndoState)
    (m : JournalMove) (rel : FsPath)
    (hstatus : m.status = "moved")
    (ho : ¬strTrim m.original_path = "") (hn : ¬strTrim m.new_path = "")
    (hoa : (parsePath m.original_path).abs = true)
    (hna : (parsePath m.new_path).abs = true)
    (hexist : (parsePath m.new_path).comps ∈ st.disk)
    (hrel : absolute_to_safe_relative (parsePath m.original_path) = some rel) :
    ((restoredBase ++ rel ∈ st.disk) →
      cdFail (resolve_restored_conflict_path st.disk (restoredBase ++ rel)).dropLast
        = false →
      mvFail (parsePath m.new_path).comps
        (resolve_restored_conflict_path st.disk (restoredBase ++ rel)) = false →
      ∃ st2, undoStep mvFail cdFail restoredBase st m = some st2 ∧
        st2.restored = st.restored + 1 ∧ st2.conflicts = st.conflicts + 1 ∧
        st2.details = st.details ++
          [⟨m.original_path, m.new_path, "conflict",
            "restored to conflict path " ++
              renderAbsPath
                (resolve_restored_conflict_path st.disk (restoredBase ++ rel))⟩]) ∧
    ((restoredBase ++ rel ∉ st.disk) →
      cdFail (restoredBase ++ rel).dropLast = false →
      mvFail (parsePath m.new_path).comps (restoredBase ++ rel) = false →
      ∃ st2, undoStep mvFail cdFail restoredBase st m = some st2 ∧
        st2.restored = st.restored + 1 ∧ st2.conflicts = st.conflicts ∧
        st2.details = st.details ++
          [⟨m.original_path, m.new_path, "restored",
            "restored under " ++ renderAbsPath restoredBase⟩]) ∧
    ((undoRun (fun _ _ => false) (fun _ => false) ["root"]
        ⟨"sid", "t0",
          [⟨"sid", "/Dump/a.txt", "/root/Documents/a.txt", "t1", "moved"⟩,
            ⟨"sid", "/Dump/b.txt", "/root/Documents/b.txt", "t1", "moved"⟩]⟩
        [["root"], ["root", "Documents", "a.txt"], ["root", "Documents", "b.txt"],
          ["root", "Restored", "sid", "Dump", "a.txt"],
          ["root", "Restored", "sid", "Dump", "b.txt"]]).map (fun p => p.1.restored)
        = some 2 ∧
      (undoRun (fun _ _ => false) (fun _ => false) ["root"]
        ⟨"sid", "t0",
          [⟨"sid", "/Dump/a.txt", "/root/Documents/a.txt", "t1", "moved"⟩,
            ⟨"sid", "/Dump/b.txt", "/root/Documents/b.txt", "t1", "moved"⟩]⟩
        [["root"], ["root", "Documents", "a.txt"], ["root", "Documents", "b.txt"],
          ["root", "Restored", "sid", "Dump", "a.txt"],
          ["root", "Restored", "sid", "Dump", "b.txt"]]).map (fun p => p.1.conflicts)
        = some 2) := by
  refine ⟨?_, ?_, by decide, by decide⟩
  · intro hcol hcd hfail
    have hred : undoStep mvFail cdFail restoredBase st m =
        undoFinish mvFail cdFail restoredBase { st with conflicts := st.conflicts + 1 } m
          (resolve_restored_conflict_path st.disk (restoredBase ++ rel))
          (some (resolve_restored_conflict_path st.disk (restoredBase ++ rel))) := by
      unfold undoStep
      rw [if_neg (not_not_intro hstatus), if_neg (fun hb => hb.elim ho hn),
        if_neg (fun hb => hb.elim (fun h2 => h2 hoa) (fun h2 => h2 hna)),
        if_neg (not_not_intro hexist), hrel]
      dsimp only
      rw [if_pos hcol]
    rw [hred]
    unfold undoFinish
    rw [if_neg (by simp [hcd]), if_neg (by simp [hfail])]
    exact ⟨_, rfl, rfl, rfl, rfl⟩
  · intro hcol hcd hfail
    have hred : undoStep mvFail cdFail restoredBase st m =
        undoFinish mvFail cdFail restoredBase st m (restoredBase ++ rel) none := by
      unfold undoStep
      rw [if_neg (not_not_intro hstatus), if_neg (fun hb => hb.elim ho hn),
        if_neg (fun hb => hb.elim (fun h2 => h2 hoa) (fun h2 => h2 hna)),
        if_neg (not_not_intro hexist), hrel]
      dsimp only
      rw [if_neg hcol]
    rw [hred]
    unfold undoFinish
    rw [if_neg (by simp [hcd]), if_neg (by simp [hfail])]
    exact ⟨_, rfl, rfl, rfl, rfl⟩

theorem C10_conflict_restores_count_both_witness :
    ∃ st2, undoStep (fun _ _ => false) (fun _ => false) ["root", "Restored", "sid"]
        ⟨[["root", "Documents", "a.txt"], ["root", "Restored", "sid", "Dump", "a.txt"]],
          0, 0, 0, 0, 0, []⟩
        ⟨"sid", "/Dump/a.txt", "/root/Documents/a.txt", "t1", "moved"⟩ = some st2 ∧
      st2.restored = 1 ∧ st2.conflicts = 1 := by
  have h := C10_conflict_restores_count_both (fun _ _ => false) (fun _ => false)
    ["root", "Restored", "sid"]
    ⟨[["root", "Documents", "a.txt"], ["root", "Restored", "sid", "Dump", "a.txt"]],
      0, 0, 0, 0, 0, []⟩
    ⟨"sid", "/Dump/a.txt", "/root/Documents/a.txt", "t1", "moved"⟩
    ["Dump", "a.txt"] rfl (by decide) (by decide) (by decide) (by decide)
    (by decide) (by decide)
  obtain ⟨st2, hsome, h1, h2, h3⟩ := h.1 (by decide) rfl rfl
  exact ⟨st2, hsome, h1, h2⟩

/-- C7.  The journal reader produces an equivalent `JournalRun` whether a
line uses the canonical field names or any of the documented legacy
aliases, and it backfills the missing optional fields: the per-move
`run_id` from the run session id, the status to `"moved"`, and the
timestamp to the current time. -/
theorem C7_journal_alias_equivalence
    (sessKey createdKey origKey newKey sid ts ts2 o nw now : String)
    (h1 : sessKey ∈ sessionAliases) (h2 : createdKey ∈ createdAliases)
    (h3 : origKey ∈ originalAliases) (h4 : newKey ∈ newAliases) :
    load_last_run now [runToJson ⟨sid, ts, [⟨sid, o, nw, ts2, "moved"⟩]⟩] =
      some ⟨sid, ts, [⟨sid, o, nw, ts2, "moved"⟩]⟩ ∧
    load_last_run now
        [Json.obj [(sessKey, Json.str sid), (createdKey, Json.str ts),
          ("moves", Json.arr [Json.obj [(origKey, Json.str o), (newKey, Json.str nw)]])]] =
      some ⟨sid, ts, [⟨sid, o, nw, now, "moved"⟩]⟩ := by
  constructor
  · show (match parseRun now (runToJson ⟨sid, ts, [⟨sid, o, nw, ts2, "moved"⟩]⟩) with
      | some run => some (backfillRun run)
      | none => none) = _
    have hparse : parseRun now (runToJson ⟨sid, ts, [⟨sid, o, nw, ts2, "moved"⟩]⟩) =
        some ⟨sid, ts, [⟨sid, o, nw, ts2, "moved"⟩]⟩ := rfl
    rw [hparse]
    show some (backfillRun _) = _
    unfold backfillRun
    by_cases hsid : sid = "" <;> simp [hsid]
  · simp only [sessionAliases] at h1
    simp only [createdAliases] at h2
    simp only [originalAliases] at h3
    simp only [newAliases] at h4
    fin_cases h1 <;> fin_cases h2 <;> fin_cases h3 <;> fin_cases h4 <;> rfl

theorem C7_journal_alias_equivalence_witness :
    ("sessionId" ∈ sessionAliases ∧ "createdAt" ∈ createdAliases ∧
      "sourcePath" ∈ originalAliases ∧ "destinationPath" ∈ newAliases) ∧
    load_last_run "now0"
        [Json.obj [("sessionId", Json.str "legacy-run"), ("createdAt", Json.str "t0"),
          ("moves", Json.arr [Json.obj [("sourcePath", Json.str "/Drop/x.txt"),
            ("destinationPath", Json.str "/root/Documents/x.txt")]])]] =
      some ⟨"legacy-run", "t0",
        [⟨"legacy-run", "/Drop/x.txt", "/root/Documents/x.txt", "now0", "moved"⟩]⟩ :=
  ⟨⟨by decide, by decide, by decide, by decide⟩,
    (C7_journal_alias_equivalence "sessionId" "createdAt" "sourcePath" "destinationPath"
      "legacy-run" "t0" "t1" "/Drop/x.txt" "/root/Documents/x.txt" "now0"
      (by decide) (by decide) (by decide) (by decide)).2⟩

end Journal

theorem pathStartsWith_iff : ∀ (pre p : FsPath), pathStartsWith pre p = true ↔ ∃ t, p = pre ++ t := by
  intro pre
  induction pre with
  | nil =>
    intro p
    simp [pathStartsWith]
  | cons a as ih =>
    intro p
    cases p with
    | nil =>
      simp [pathStartsWith]
    | cons b bs =>
      simp only [pathStartsWith, Bool.and_eq_true, beq_iff_eq, List.cons_append,
        List.cons.injEq]
      constructor
      · rintro ⟨rfl, h⟩
        obtain ⟨t, rfl⟩ := (ih bs).mp h
        exact ⟨t, rfl, rfl⟩
      · rintro ⟨t, rfl, rfl⟩
        exact ⟨rfl, (ih _).mpr ⟨t, rfl⟩⟩

theorem pathStartsWith_refl_append (p t : FsPath) : pathStartsWith p (p ++ t) = true :=
  (pathStartsWith_iff p (p ++ t)).mpr ⟨t, rfl⟩

theorem dirChain_factor (p r : FsPath) (h : r ∈ dirChain p) : ∃ t, p = r ++ t := by
  simp only [dirChain, List.mem_map, List.mem_range] at h
  obtain ⟨i, hi, rfl⟩ := h
  exact ⟨p.drop (i + 1), (List.take_append_drop (i + 1) p).symm⟩

theorem append_factor_cases : ∀ (b r t u : FsPath), b ++ t = r ++ u →
    (∃ v, r = b ++ v) ∨ (∃ v, b = r ++ v) := by
  intro b
  induction b with
  | nil => intro r t u h; exact Or.inl ⟨r, rfl⟩
  | cons x b2 ih =>
    intro r t u h
    cases r with
    | nil => exact Or.inr ⟨x :: b2, rfl⟩
    | cons y r2 =>
      simp only [List.cons_append, List.cons.injEq] at h
      obtain ⟨rfl, h2⟩ := h
      rcases ih r2 t u h2 with ⟨v, rfl⟩ | ⟨v, hv⟩
      · exact Or.inl ⟨v, rfl⟩
      · exact Or.inr ⟨v, by rw [List.cons_append, ← hv]⟩

theorem dropLast_factor : ∀ (t : FsPath), ∃ s, t = t.dropLast ++ s := by
  intro t
  induction t with
  | nil => exact ⟨[], rfl⟩
  | cons a t2 ih =>
    cases t2 with
    | nil => exact ⟨[a], rfl⟩
    | cons b t3 =>
      obtain ⟨s, hs⟩ := ih
      refine ⟨s, ?_⟩
      conv_lhs => rw [hs]
      rfl

namespace Journal

theorem cone_of_under (b q : FsPath) (h : ∃ t, q = b ++ t) : InRestoredCone b q :=
  Or.inr ((pathStartsWith_iff b q).mpr h)

theorem cone_dirChain_of_cone (b t r : FsPath) (ht : InRestoredCone b t)
    (hr : r ∈ dirChain t.dropLast) : InRestoredCone b r := by
  obtain ⟨u, hu⟩ := dirChain_factor _ _ hr
  obtain ⟨s, hs⟩ := dropLast_factor t
  rcases ht with h | h
  · obtain ⟨w, hw⟩ := (pathStartsWith_iff _ _).mp h
    left
    apply (pathStartsWith_iff _ _).mpr
    refine ⟨u ++ s ++ w, ?_⟩
    rw [hw, hs, hu]
    simp [List.append_assoc]
  · obtain ⟨w, hw⟩ := (pathStartsWith_iff _ _).mp h
    have hkey : b ++ w = r ++ (u ++ s) := by
      rw [← List.append_assoc, ← hu, ← hs, ← hw]
    rcases append_factor_cases b r w (u ++ s) hkey with ⟨v, rfl⟩ | ⟨v, hv⟩
    · exact Or.inr (pathStartsWith_refl_append b v)
    · left
      rw [hv]
      exact pathStartsWith_refl_append r v

theorem cone_dirChain_base (b : FsPath) (sid : String) (r : FsPath)
    (hr : r ∈ dirChain (b ++ [sid])) : InRestoredCone b r := by
  obtain ⟨u, hu⟩ := dirChain_factor _ _ hr
  rcases append_factor_cases b r [sid] u hu with ⟨v, rfl⟩ | ⟨v, hv⟩
  · exact Or.inr (pathStartsWith_refl_append b v)
  · left
    rw [hv]
    exact pathStartsWith_refl_append r v

theorem resolve_restored_shape (d : List FsPath) (orig : FsPath) :
    ∃ nm, resolve_restored_conflict_path d orig = orig.dropLast ++ [nm] :=
  ⟨_, rfl⟩

theorem undoFinish_disk (mvFail : FsPath → FsPath → Bool) (cdFail : FsPath → Bool)
    (rb : FsPath) (st : UndoState) (m : JournalMove) (target : FsPath)
    (ct : Option FsPath) (st2 : UndoState)
    (h : undoFinish mvFail cdFail rb st m target ct = some st2)
    (q : FsPath) (hq : q ∈ st2.disk) :
    q = target ∨ q ∈ dirChain target.dropLast ∨ q ∈ st.disk := by
  unfold undoFinish at h
  by_cases hcd : cdFail target.dropLast = true
  · rw [if_pos hcd] at h
    exact absurd h (by simp)
  · rw [if_neg hcd] at h
    by_cases hf : mvFail (parsePath m.new_path).comps target = true
    · rw [if_pos hf] at h
      injection h with h2
      subst h2
      rcases List.mem_append.mp hq with h3 | h3
      · exact Or.inr (Or.inl h3)
      · exact Or.inr (Or.inr h3)
    · rw [if_neg hf] at h
      injection h with h2
      subst h2
      rcases List.mem_cons.mp hq with h3 | h3
      · exact Or.inl h3
      · have h4 := List.mem_of_mem_filter h3
        rcases List.mem_append.mp h4 with h5 | h5
        · exact Or.inr (Or.inl h5)
        · exact Or.inr (Or.inr h5)

end Journal

namespace Journal

theorem cone_plain_target (b : FsPath) (sid : String) (rel : FsPath) :
    InRestoredCone b ((b ++ [sid]) ++ rel) :=
  cone_of_under b _ ⟨[sid] ++ rel, List.append_assoc b [sid] rel⟩

theorem cone_resolve_target (b : FsPath) (sid : String) (rel : FsPath)
    (d : List FsPath) :
    InRestoredCone b (resolve_restored_conflict_path d ((b ++ [sid]) ++ rel)) := by
  obtain ⟨nm, hnm⟩ := resolve_restored_shape d ((b ++ [sid]) ++ rel)
  rw [hnm]
  apply cone_of_under
  refine ⟨([sid] ++ rel).dropLast ++ [nm], ?_⟩
  rw [List.append_assoc, List.dropLast_append_of_ne_nil b (by simp), List.append_assoc]

theorem undoStep_disk_additions (mvFail : FsPath → FsPath → Bool) (cdFail : FsPath → Bool)
    (b : FsPath) (sid : String) (st : UndoState) (m : JournalMove) (st2 : UndoState)
    (h : undoStep mvFail cdFail (b ++ [sid]) st m = some st2) (q : FsPath)
    (hq : q ∈ st2.disk) :
    q ∈ st.disk ∨ InRestoredCone b q := by
  rcases undoStep_split mvFail cdFail (b ++ [sid]) st m with
    ⟨st3, hsome, hdisk, _⟩ | ⟨_, _, rel, hrel, hcase⟩
  · rw [h] at hsome
    injection hsome with h2
    subst h2
    rw [hdisk] at hq
    exact Or.inl hq
  · rcases hcase with ⟨hcol, hstep⟩ | ⟨hcol, hstep⟩
    · rw [hstep] at h
      rcases undoFinish_disk _ _ _ _ _ _ _ _ h q hq with h3 | h3 | h3
      · exact Or.inr (h3 ▸ cone_resolve_target b sid rel st.disk)
      · exact Or.inr (cone_dirChain_of_cone b _ q (cone_resolve_target b sid rel st.disk) h3)
      · exact Or.inl h3
    · rw [hstep] at h
      rcases undoFinish_disk _ _ _ _ _ _ _ _ h q hq with h3 | h3 | h3
      · exact Or.inr (h3 ▸ cone_plain_target b sid rel)
      · exact Or.inr (cone_dirChain_of_cone b _ q (cone_plain_target b sid rel) h3)
      · exact Or.inl h3

theorem undoStep_keeps_out (mvFail : FsPath → FsPath → Bool) (cdFail : FsPath → Bool)
    (b : FsPath) (sid : String) (st : UndoState) (m : JournalMove) (st2 : UndoState)
    (h : undoStep mvFail cdFail (b ++ [sid]) st m = some st2) (x : FsPath)
    (hcone : ¬InRestoredCone b x) (hnot : x ∉ st.disk) :
    x ∉ st2.disk := by
  intro hc
  rcases undoStep_disk_additions mvFail cdFail b sid st m st2 h x hc with h3 | h3
  · exact hnot h3
  · exact hcone h3

theorem undo_fold_keeps_out (mvFail : FsPath → FsPath → Bool) (cdFail : FsPath → Bool)
    (b : FsPath) (sid : String) :
    ∀ (moves : List JournalMove) (st stf : UndoState),
      undoMoves mvFail cdFail (b ++ [sid]) moves st = some stf →
      ∀ x, ¬InRestoredCone b x → x ∉ st.disk → x ∉ stf.disk := by
  intro moves
  induction moves with
  | nil =>
    intro st stf h x _ hnot
    unfold undoMoves at h
    injection h with h2
    subst h2
    exact hnot
  | cons m rest ih =>
    intro st stf h x hcone hnot
    rcases heq : undoStep mvFail cdFail (b ++ [sid]) st m with _ | st1
    · unfold undoMoves at h
      rw [heq] at h
      dsimp only at h
      exact Option.noConfusion h
    · unfold undoMoves at h
      rw [heq] at h
      dsimp only at h
      exact ih st1 stf h x hcone
        (undoStep_keeps_out mvFail cdFail b sid st m st1 heq x hcone hnot)

theorem undoFinish_false_not_mem (rb : FsPath) (st : UndoState) (m : JournalMove)
    (target : FsPath) (ct : Option FsPath) (hne : newComps m ≠ target) :
    ∃ st2, undoFinish (fun _ _ => false) (fun _ => false) rb st m target ct = some st2 ∧
      newComps m ∉ st2.disk := by
  refine ⟨_, rfl, ?_⟩
  intro hc
  rcases List.mem_cons.mp hc with h | h
  · exact hne h
  · have := List.of_mem_filter h
    simp [newComps] at this

theorem undoStep_removes (b : FsPath) (sid : String) (st : UndoState)
    (m : JournalMove) (hwf : MoveWf m)
    (hcone : ¬InRestoredCone b (newComps m)) :
    ∃ st2, undoStep (fun _ _ => false) (fun _ => false) (b ++ [sid]) st m = some st2 ∧
      newComps m ∉ st2.disk := by
  rcases undoStep_split (fun _ _ => false) (fun _ => false) (b ++ [sid]) st m with
    ⟨st2, hsome, hdisk, _, _, _, hnofin⟩ | ⟨_, _, rel, hrel, hcase⟩
  · refine ⟨st2, hsome, ?_⟩
    rw [hdisk]
    intro hc
    exact hnofin ⟨hwf, hc⟩
  · rcases hcase with ⟨hcol, hstep⟩ | ⟨hcol, hstep⟩
    · rw [hstep]
      exact undoFinish_false_not_mem _ _ _ _ _
        (fun he => hcone (he ▸ cone_resolve_target b sid rel st.disk))
    · rw [hstep]
      exact undoFinish_false_not_mem _ _ _ _ _
        (fun he => hcone (he ▸ cone_plain_target b sid rel))

theorem undo_run1_removes (b : FsPath) (sid : String) :
    ∀ (moves : List JournalMove) (st stf : UndoState),
      (∀ m ∈ moves, ¬InRestoredCone b (newComps m)) →
      undoMoves (fun _ _ => false) (fun _ => false) (b ++ [sid]) moves st = some stf →
      ∀ m ∈ moves, MoveWf m → newComps m ∉ stf.disk := by
  intro moves
  induction moves with
  | nil => intro st stf _ _ m hm; exact absurd hm (List.not_mem_nil m)
  | cons m0 rest ih =>
    intro st stf hcone h m hm hwf
    rcases heq : undoStep (fun _ _ => false) (fun _ => false) (b ++ [sid]) st m0
      with _ | st1
    · unfold undoMoves at h
      rw [heq] at h
      dsimp only at h
      exact Option.noConfusion h
    · unfold undoMoves at h
      rw [heq] at h
      dsimp only at h
      rcases List.mem_cons.mp hm with rfl | hm2
      · obtain ⟨st2, hsome, hout⟩ := undoStep_removes b sid st m hwf
          (hcone m (List.mem_cons_self m rest))
        rw [heq] at hsome
        injection hsome with h2
        subst h2
        exact undo_fold_keeps_out (fun _ _ => false) (fun _ => false) b sid rest st1 stf h
          (newComps m) (hcone m (List.mem_cons_self m rest)) hout
      · exact ih st1 stf (fun m2 hm3 => hcone m2 (List.mem_cons_of_mem m0 hm3)) h m hm2 hwf

theorem undoStep_no_finish (mvFail : FsPath → FsPath → Bool) (cdFail : FsPath → Bool)
    (rb : FsPath) (st : UndoState) (m : JournalMove)
    (h : MoveWf m → newComps m ∉ st.disk) :
    ∃ st2, undoStep mvFail cdFail rb st m = some st2 ∧
      st2.disk = st.disk ∧ st2.restored = st.restored ∧ st2.conflicts = st.conflicts ∧
      (MoveWf m → st2.details = st.details ++ [missingDetailOf m]) := by
  rcases undoStep_split mvFail cdFail rb st m with
    ⟨st2, hsome, hdisk, hres, hcon, hmiss, _⟩ | ⟨hwf, hin, _⟩
  · exact ⟨st2, hsome, hdisk, hres, hcon, fun hwf => hmiss hwf (h hwf)⟩
  · exact absurd hin (h hwf)

theorem undo_details_mono (mvFail : FsPath → FsPath → Bool) (cdFail : FsPath → Bool)
    (rb : FsPath) :
    ∀ (moves : List JournalMove) (st stf : UndoState),
      undoMoves mvFail cdFail rb moves st = some stf →
      ∀ d ∈ st.details, d ∈ stf.details := by
  intro moves
  induction moves with
  | nil =>
    intro st stf h d hd
    unfold undoMoves at h
    injection h with h2
    subst h2
    exact hd
  | cons m rest ih =>
    intro st stf h d hd
    rcases heq : undoStep mvFail cdFail rb st m with _ | st1
    · unfold undoMoves at h
      rw [heq] at h
      dsimp only at h
      exact Option.noConfusion h
    · unfold undoMoves at h
      rw [heq] at h
      dsimp only at h
      obtain ⟨d0, hd0, _, _, _⟩ := undoStep_some_detail mvFail cdFail rb st m st1 heq
      exact ih st1 stf h d (by rw [hd0]; exact List.mem_append_left _ hd)

theorem undo_run2_all_missing (mvFail : FsPath → FsPath → Bool) (cdFail : FsPath → Bool)
    (rb : FsPath) :
    ∀ (moves : List JournalMove) (st : UndoState),
      (∀ m ∈ moves, MoveWf m → newComps m ∉ st.disk) →
      ∃ stf, undoMoves mvFail cdFail rb moves st = some stf ∧
        stf.restored = st.restored ∧ stf.conflicts = st.conflicts ∧ stf.disk = st.disk ∧
        ∀ m ∈ moves, MoveWf m → missingDetailOf m ∈ stf.details := by
  intro moves
  induction moves with
  | nil =>
    intro st _
    exact ⟨st, rfl, rfl, rfl, rfl, fun m hm => absurd hm (List.not_mem_nil m)⟩
  | cons m0 rest ih =>
    intro st h
    obtain ⟨st1, hsome, hdisk, hres, hcon, hmiss⟩ := undoStep_no_finish mvFail cdFail
      rb st m0 (h m0 (List.mem_cons_self m0 rest))
    have hrest : ∀ m ∈ rest, MoveWf m → newComps m ∉ st1.disk := by
      intro m hm hwf
      rw [hdisk]
      exact h m (List.mem_cons_of_mem m0 hm) hwf
    obtain ⟨stf, hfold, ihres, ihcon, ihdisk, ihdet⟩ := ih st1 hrest
    refine ⟨stf, ?_, by rw [ihres, hres], by rw [ihcon, hcon], by rw [ihdisk, hdisk], ?_⟩
    · unfold undoMoves
      rw [hsome]
      dsimp only
      exact hfold
    · intro m hm hwf
      rcases List.mem_cons.mp hm with rfl | hm2
      · exact undo_details_mono mvFail cdFail rb rest st1 stf hfold (missingDetailOf m)
          (by rw [hmiss hwf]; exact List.mem_append_right _ (List.mem_singleton.mpr rfl))
      · exact ihdet m hm2 hwf

end Journal

namespace Journal

/-- C4.  Undo idempotence: with the last run's current paths outside the
`Restored` quarantine cone (the real situation — the pipeline never moves
files into `Restored`), a first undo that completes with no per-move I/O
or directory-creation failures followed by a second undo with no
intervening run (whose base directory creation succeeds) yields zero
restored and zero conflict outcomes the second time, and every move the
first undo restored (detail status `"restored"` or `"conflict"`) is
reported `"missing"` by the second undo. -/
theorem C4_second_undo_reports_missing (mvFail2 : FsPath → FsPath → Bool)
    (cdFail2 : FsPath → Bool) (sortRoot : FsPath) (run : JournalRun)
    (disk : List FsPath)
    (hcone : ∀ m ∈ run.moves,
      ¬InRestoredCone (sortRoot ++ ["Restored"]) (newComps m))
    (hcd2 : cdFail2 (sortRoot ++ ["Restored", run.session_id]) = false)
    (res1 : UndoResult) (disk1 : List FsPath)
    (h1 : undoRun (fun _ _ => false) (fun _ => false) sortRoot run disk
      = some (res1, disk1)) :
    ∃ res2 disk2, undoRun mvFail2 cdFail2 sortRoot run disk1 = some (res2, disk2) ∧
      res2.restored = 0 ∧ res2.conflicts = 0 ∧
      ∀ d ∈ res1.details, (d.status = "restored" ∨ d.status = "conflict") →
        ∃ m ∈ run.moves, d.source_path = m.original_path ∧
          d.destination_path = m.new_path ∧ missingDetailOf m ∈ res2.details := by
  have hb : sortRoot ++ ["Restored", run.session_id] =
      (sortRoot ++ ["Restored"]) ++ [run.session_id] := by simp
  have hconeR : ∀ m ∈ run.moves.reverse,
      ¬InRestoredCone (sortRoot ++ ["Restored"]) (newComps m) :=
    fun m hm => hcone m (List.mem_reverse.mp hm)
  unfold undoRun at h1
  rw [if_neg (by simp)] at h1
  rcases heq : undoMoves (fun _ _ => false) (fun _ => false)
      (sortRoot ++ ["Restored", run.session_id]) run.moves.reverse
      ⟨createDirAll disk (sortRoot ++ ["Restored", run.session_id]), 0, 0, 0, 0, 0, []⟩
    with _ | stf
  · rw [heq] at h1
    dsimp only at h1
    exact Option.noConfusion h1
  · rw [heq] at h1
    dsimp only at h1
    injection h1 with h1p
    injection h1p with hres1 hdisk1
    subst hres1
    subst hdisk1
    rw [hb] at heq
    have hD2 : ∀ m ∈ run.moves.reverse, MoveWf m →
        newComps m ∉ createDirAll stf.disk
          ((sortRoot ++ ["Restored"]) ++ [run.session_id]) := by
      intro m hm hwf hc
      rcases List.mem_append.mp hc with h | h
      · exact hconeR m hm (cone_dirChain_base _ _ _ h)
      · exact undo_run1_removes (sortRoot ++ ["Restored"]) run.session_id
          run.moves.reverse _ stf hconeR heq m hm hwf h
    obtain ⟨stf2, hfold2, h2res, h2con, _, h2det⟩ := undo_run2_all_missing mvFail2
      cdFail2 ((sortRoot ++ ["Restored"]) ++ [run.session_id]) run.moves.reverse
      ⟨createDirAll stf.disk ((sortRoot ++ ["Restored"]) ++ [run.session_id]),
        0, 0, 0, 0, 0, []⟩ hD2
    unfold undoRun
    rw [if_neg (by simp [hcd2]), hb, hfold2]
    refine ⟨⟨some run.session_id, stf2.restored, stf2.skipped, stf2.conflicts,
      stf2.missing, stf2.errors, stf2.details⟩, stf2.disk, rfl, h2res, h2con, ?_⟩
    intro d hd hstat
    rcases undo_fold_details_origin (fun _ _ => false) (fun _ => false)
        ((sortRoot ++ ["Restored"]) ++ [run.session_id]) run.moves.reverse
        ⟨createDirAll disk ((sortRoot ++ ["Restored"]) ++ [run.session_id]),
          0, 0, 0, 0, 0, []⟩ stf d heq hd with hnil | ⟨m, hm, hsrc, hdst, hwfd⟩
    · exact absurd hnil (List.not_mem_nil d)
    · exact ⟨m, List.mem_reverse.mp hm, hsrc, hdst, h2det m hm (hwfd hstat)⟩

end Journal

namespace Journal

theorem C4_second_undo_reports_missing_witness :
    ∃ res1 disk1 res2 disk2,
      undoRun (fun _ _ => false) (fun _ => false) ["root"]
        ⟨"sid", "t0", [⟨"sid", "/Drop/a.txt", "/root/Documents/a.txt", "t1", "moved"⟩]⟩
        [["root"], ["root", "Documents", "a.txt"]] = some (res1, disk1) ∧
      undoRun (fun _ _ => false) (fun _ => false) ["root"]
        ⟨"sid", "t0", [⟨"sid", "/Drop/a.txt", "/root/Documents/a.txt", "t1", "moved"⟩]⟩
        disk1 = some (res2, disk2) ∧
      res2.restored = 0 ∧ res2.conflicts = 0 := by
  obtain ⟨⟨res1, disk1⟩, h1⟩ :
      ∃ p, undoRun (fun _ _ => false) (fun _ => false) ["root"]
        ⟨"sid", "t0", [⟨"sid", "/Drop/a.txt", "/root/Documents/a.txt", "t1", "moved"⟩]⟩
        [["root"], ["root", "Documents", "a.txt"]] = some p := ⟨_, rfl⟩
  obtain ⟨res2, disk2, h2, hres, hcon, _⟩ :=
    C4_second_undo_reports_missing (fun _ _ => false) (fun _ => false) ["root"]
      ⟨"sid", "t0", [⟨"sid", "/Drop/a.txt", "/root/Documents/a.txt", "t1", "moved"⟩]⟩
      [["root"], ["root", "Documents", "a.txt"]] (by decide) rfl res1 disk1 h1
  exact ⟨res1, disk1, res2, disk2, h1, h2, hres, hcon⟩

end Journal

namespace Planner

theorem C1_plan_destinations_unique_witness :
    (destsOf (build_plan Executor.sampleRules Executor.sampleWalk
      Executor.samplePlanDisk "sid" "now").moves).Nodup ∧
    (⟨["root", "Drop", "a.txt"], ["root", "Documents", "a.txt"], "Documents", false⟩ :
        PlanEntry) ∈ (build_plan Executor.sampleRules Executor.sampleWalk
      Executor.samplePlanDisk "sid" "now").moves ∧
    (["root", "Documents", "a.txt"] : FsPath) ∉ Executor.samplePlanDisk := by
  have h := C1_plan_destinations_unique Executor.sampleRules Executor.sampleWalk
    Executor.samplePlanDisk "sid" "now"
  exact ⟨h.1, by decide,
    h.2 ⟨["root", "Drop", "a.txt"], ["root", "Documents", "a.txt"], "Documents", false⟩
      (by decide)⟩

end Planner

namespace Cleanup

theorem C8_cleanup_safety_witness :
    (["root", "Drop"] : FsPath) ∈ (cleanup_empty_folders Executor.sampleRules
      [CleanupItem.entry ["root", "Drop"] true] [["root"], ["root", "Drop"]]
      (fun _ => false) (fun _ => false)).1.trashedPaths ∧
    (["root", "Drop"] : FsPath) ≠ Executor.sampleRules.global.sort_root := by
  have h := C8_cleanup_safety Executor.sampleRules
    [CleanupItem.entry ["root", "Drop"] true] [["root"], ["root", "Drop"]]
    (fun _ => false) (fun _ => false) ["root", "Drop"] (by decide)
  exact ⟨by decide, h.1⟩

end Cleanup

end SecondBreakfast